import Mathlib

/-!
Verification of the incremental hash table (`src/redis_server/rdict.py`) of
ruanima/redis-server-py.

The Python module is shallowly embedded below.  Conventions of the embedding:

* Keys and values are natural numbers; the dict's pluggable hash function
  (`d.type.hashFunction`) is a parameter `hash : Nat → Nat`; the key compare
  defaults to equality (`dictCompareKeys` with `keyCompare = None`), and
  `keyDup`/`valDup` are `None`, matching the dict types the repository
  installs.
* A collision chain (a `dictEntry` linked list headed at a bucket) is a
  `List (Nat × Nat)` of (key, value) pairs; Python's `None` bucket is `[]`.
* Python functions mutate the `rDict` in place; the embedding passes the
  state explicitly and returns the new state.
* Paths on which the Python code raises an exception (IndexError,
  UnboundLocalError, AssertionError) are modelled by `Option`/an explicit
  `crash` constructor; `none`/`crash` means "the Python call raises".
* Machine integers: the scan cursor is wrapped in `MutableUInt32`
  (wrap-around mod 2^32) while `rev` reverses 64 bits; both are modelled on
  `Nat` with explicit `% 2^32` masking and a 64-bit bit reversal.
-/

set_option maxHeartbeats 1000000
set_option maxRecDepth 8192

namespace RDict

open List

/-- One collision chain: the `dictEntry` list hanging off a bucket,
in list order = chain order (head = most recently prepended). -/
abbrev Chain := List (Nat × Nat)

/-- `class dictht`: one hash-table generation (`table`, `size`, `sizemask`,
`used`).  `table` is the bucket array; an empty bucket (`None` in Python)
is `[]`. -/
structure dictht where
  table : List Chain
  size : Nat
  sizemask : Nat
  used : Nat
deriving Repr, DecidableEq

/-- `class rDict`: the dictionary: two generations `ht[0]`, `ht[1]`, the
rehash cursor `rehashidx` (-1 = not rehashing) and the safe-iterator
counter `iterators`. -/
structure rDict where
  ht0 : dictht
  ht1 : dictht
  rehashidx : Int
  iterators : Nat
deriving Repr, DecidableEq

def DICT_OK : Nat := 0
def DICT_ERR : Nat := 1
def DICT_HT_INITIAL_SIZE : Nat := 4
def LONG_MAX : Nat := 0x7fffffffffffffff

/-- `dictIsRehashing`: `ht.rehashidx != -1`. -/
def dictIsRehashing (d : rDict) : Bool := d.rehashidx != -1

/-- `_dictReset` produces this state (all fields cleared). -/
def emptyHt : dictht := ⟨[], 0, 0, 0⟩

/-- `dictCreate` / `_dictInit`: a dict with both generations reset,
`rehashidx = -1`, `iterators = 0`. -/
def dictCreate : rDict := ⟨emptyHt, emptyHt, -1, 0⟩

/-- `dictSize`: `d.ht[0].used + d.ht[1].used`. -/
def dictSize (d : rDict) : Nat := d.ht0.used + d.ht1.used

/-- The loop of `_dictNextPower`: `while True: if i >= size: return i; i *= 2`.
`fuel` only bounds the iteration count so the recursion is structural (and
kernel-reducible): `_dictNextPower` passes `size` as fuel, strictly more
than the ≤ log₂(size) doublings the loop performs starting from 4
(`nextPowerLoop_ge` below proves the returned value is already ≥ `size`
within this budget, so the fuel-0 fallback is never what is returned). -/
def nextPowerLoop (fuel i size : Nat) : Nat :=
  match fuel with
  | 0 => i
  | fuel + 1 => if i ≥ size then i else nextPowerLoop fuel (i * 2) size

/-- `_dictNextPower`: smallest value of the doubling sequence 4, 8, 16, …
that is ≥ `size`, capped: returns `LONG_MAX` when `size >= LONG_MAX`. -/
def _dictNextPower (size : Nat) : Nat :=
  if size ≥ LONG_MAX then LONG_MAX
  else nextPowerLoop size DICT_HT_INITIAL_SIZE size

/-- The fresh generation `n` built by `dictExpand`: `realsize` empty buckets,
`sizemask = realsize - 1`, `used = 0`. -/
def newHt (realsize : Nat) : dictht :=
  ⟨List.replicate realsize [], realsize, realsize - 1, 0⟩

/-- `dictExpand(d, size)`: fails (DICT_ERR, state unchanged) when mid-rehash
or `d.ht[0].used > size`; otherwise builds the next-power table and installs
it as `ht[0]` when `ht[0].table` is empty, else as `ht[1]` with
`rehashidx = 0`. -/
def dictExpand (d : rDict) (size : Nat) : rDict × Nat :=
  let realsize := _dictNextPower size
  if dictIsRehashing d ∨ d.ht0.used > size then (d, DICT_ERR)
  else if d.ht0.table = [] then ({ d with ht0 := newHt realsize }, DICT_OK)
  else ({ d with ht1 := newHt realsize, rehashidx := 0 }, DICT_OK)

/-- `dictResize(d)`: rejected when resize is disabled or mid-rehash; else
`dictExpand(d, min(d.ht[0].used, DICT_HT_INITIAL_SIZE))`.  NOTE: the source
really computes `min` here (rdict.py line 218), not `max`. -/
def dictResize (dict_can_resize : Bool) (d : rDict) : rDict × Nat :=
  if ¬dict_can_resize ∨ dictIsRehashing d then (d, DICT_ERR)
  else dictExpand d (min d.ht0.used DICT_HT_INITIAL_SIZE)

section WithHash

variable (hash : Nat → Nat)

/-- Scan of the suffix of the bucket array starting at index `i` (the list
argument is that suffix) for the first non-empty chain, returning its
absolute index. -/
def findBucketAux : List Chain → Nat → Option Nat
  | [], _ => none
  | [] :: rest, i => findBucketAux rest (i + 1)
  | (_ :: _) :: _, i => some i

/-- First bucket index ≥ `i` holding a non-empty chain, `none` if the walk
`while d.ht[0].table[d.rehashidx] is None: d.rehashidx += 1` would run past
the end of the table (IndexError) — which also covers the preceding
`assert d.ht[0].size > d.rehashidx` failing. -/
def findBucketFrom (t : List Chain) (i : Nat) : Option Nat :=
  findBucketAux (t.drop i) i

/-- The inner migration loop of `dictRehash`: each entry `de` of the chain is
prepended (`de.next = d.ht[1].table[h]; d.ht[1].table[h] = de`) into bucket
`dictHashKey(d, de.key) & d.ht[1].sizemask` of `ht[1]`, incrementing
`ht[1].used`. -/
def migrateChain (t1 : dictht) : Chain → dictht
  | [] => t1
  | e :: rest =>
    let h := hash e.1 &&& t1.sizemask
    migrateChain
      { t1 with
        table := t1.table.set h (e :: t1.table.getD h []),
        used := t1.used + 1 } rest

/-- The rehash-completion state: `ht[0] = c_assignment(ht[1])` (C-style
struct copy, from the repository's `csix` helper module, not under `src/`;
per the spec this is `ht0 ← ht1`), `ht[1]` reset, `rehashidx = -1`. -/
def finalizeRehash (d : rDict) : rDict :=
  { d with ht0 := d.ht1, ht1 := emptyHt, rehashidx := -1 }

/-- The state after migrating the bucket `idx` of `ht[0]`: every entry of
its chain is re-bucketed into `ht[1]` (each prepend decrementing
`ht[0].used` and incrementing `ht[1].used`, so net `ht[0].used` drops by
the chain length), the bucket is cleared, and `rehashidx = idx + 1`. -/
def rehashMigrateBucket (d : rDict) (idx : Nat) : rDict :=
  let chain := d.ht0.table.getD idx []
  { d with
    ht0 := { d.ht0 with
              table := d.ht0.table.set idx [],
              used := d.ht0.used - chain.length },
    ht1 := migrateChain hash d.ht1 chain,
    rehashidx := (idx : Int) + 1 }

/-- The `while (n)` loop body of `dictRehash`.  Fuel = the remaining `n`.
When `ht[0].used == 0` the rehash finalizes and the call returns 0.
Otherwise one non-empty bucket (found by skipping empty ones from
`rehashidx` on, `none` = the skip walk runs off the table) is migrated. -/
def dictRehashLoop (d : rDict) : Nat → Option (rDict × Nat)
  | 0 => some (d, 1)
  | n + 1 =>
    if d.ht0.used = 0 then some (finalizeRehash d, 0)
    else
      match findBucketFrom d.ht0.table d.rehashidx.toNat with
      | none => none
      | some idx => dictRehashLoop (rehashMigrateBucket hash d idx) n

/-- `dictRehash(d, n)`: returns 0 immediately when not rehashing, else runs
up to `n` bucket migrations (empty buckets skipped for free). -/
def dictRehash (d : rDict) (n : Nat) : Option (rDict × Nat) :=
  if dictIsRehashing d then dictRehashLoop hash d n else some (d, 0)

/-- `_dictRehashStep(d)`: one opportunistic `dictRehash(d, 1)`, suppressed
while `d.iterators != 0`. -/
def _dictRehashStep (d : rDict) : Option rDict :=
  if d.iterators = 0 then (dictRehash hash d 1).map Prod.fst else some d

/-- The `while he: if dictCompareKeys(...): return he; he = he.next` walk:
first entry of the chain with the given key. -/
def chainFind (c : Chain) (key : Nat) : Option (Nat × Nat) :=
  match c with
  | [] => none
  | e :: rest => if e.1 = key then some e else chainFind rest key

/-- The unlink walk of `dictGenericDelete` on one chain: removes the first
entry carrying `key` (`prev_he.next = he.next` / `table[idx] = he.next`),
`none` when the key is absent from the chain. -/
def chainRemove (c : Chain) (key : Nat) : Option Chain :=
  match c with
  | [] => none
  | e :: rest =>
    if e.1 = key then some rest
    else (chainRemove rest key).map (e :: ·)

/-- Value update of the first entry carrying `key` in a chain: models
`dictSetVal(d, entry, val)` applied to the entry `dictFind` returned (the
source mutates that entry object in place). -/
def chainSetVal (c : Chain) (key val : Nat) : Chain :=
  match c with
  | [] => []
  | e :: rest =>
    if e.1 = key then (e.1, val) :: rest
    else e :: chainSetVal rest key val

variable (dict_can_resize : Bool)

/-- `_dictExpandIfNeeded(d)`: OK while rehashing; first insertion allocates
`ht[0]` at `DICT_HT_INITIAL_SIZE`; otherwise expand to `used * 2` when
`used >= size` and (resize enabled or `used // size > 5`, the
force-resize ratio). -/
def _dictExpandIfNeeded (d : rDict) : rDict × Nat :=
  if dictIsRehashing d then (d, DICT_OK)
  else if d.ht0.size = 0 then dictExpand d DICT_HT_INITIAL_SIZE
  else if d.ht0.used ≥ d.ht0.size ∧
          (dict_can_resize = true ∨ d.ht0.used / d.ht0.size > 5) then
    dictExpand d (d.ht0.used * 2)
  else (d, DICT_OK)

/-- `_dictKeyIndex(d, key)`: expand if needed (propagating DICT_ERR as -1 =
`none`), then look for `key` in bucket `h & sizemask` of `ht[0]` and — when
rehashing — of `ht[1]`; found key gives -1 (`none`), otherwise the bucket
index in the last table examined (`ht[1]` when rehashing, else `ht[0]`). -/
def _dictKeyIndex (d : rDict) (key : Nat) : rDict × Option Nat :=
  let p := _dictExpandIfNeeded dict_can_resize d
  if p.2 = DICT_ERR then (p.1, none)
  else
    let d₁ := p.1
    let h := hash key
    let idx0 := h &&& d₁.ht0.sizemask
    if (chainFind (d₁.ht0.table.getD idx0 []) key).isSome then (d₁, none)
    else if ¬dictIsRehashing d₁ then (d₁, some idx0)
    else
      let idx1 := h &&& d₁.ht1.sizemask
      if (chainFind (d₁.ht1.table.getD idx1 []) key).isSome then (d₁, none)
      else (d₁, some idx1)

/-- Prepend a fresh entry into bucket `idx`:
`entry.next = ht.table[index]; ht.table[index] = entry; ht.used += 1`. -/
def insertHt (t : dictht) (idx key val : Nat) : dictht :=
  { t with
    table := t.table.set idx ((key, val) :: t.table.getD idx []),
    used := t.used + 1 }

/-- `dictAdd(d, key, val)` fused with `dictAddRaw`: one opportunistic rehash
step when mid-rehash, then `_dictKeyIndex`; `-1` gives DICT_ERR, otherwise
the fresh entry goes to `ht[1]` when (still) rehashing else `ht[0]`.
`dictAddRaw` creates the entry with the key set (`dictSetKey`, `keyDup =
None`) and `dictAdd` immediately sets its value (`dictSetVal`, `valDup =
None`); as the entry is freshly at its bucket's head this is insertion of
the pair `(key, val)`. -/
def dictAdd (d : rDict) (key val : Nat) : Option (rDict × Nat) :=
  match (if dictIsRehashing d then _dictRehashStep hash d else some d) with
  | none => none
  | some d₁ =>
    match _dictKeyIndex hash dict_can_resize d₁ key with
    | (d₂, none) => some (d₂, DICT_ERR)
    | (d₂, some idx) =>
      if dictIsRehashing d₂ then
        some ({ d₂ with ht1 := insertHt d₂.ht1 idx key val }, DICT_OK)
      else
        some ({ d₂ with ht0 := insertHt d₂.ht0 idx key val }, DICT_OK)

/-- `dictFind(d, key)`: `None` when `ht[0].size == 0`; else one opportunistic
rehash step when mid-rehash, then probe bucket `h & sizemask` of `ht[0]` and,
only when rehashing, of `ht[1]`.  Returns the (possibly rehash-advanced)
state and the found entry. -/
def dictFind (d : rDict) (key : Nat) : Option (rDict × Option (Nat × Nat)) :=
  if d.ht0.size = 0 then some (d, none)
  else
    match (if dictIsRehashing d then _dictRehashStep hash d else some d) with
    | none => none
    | some d₁ =>
      let h := hash key
      match chainFind (d₁.ht0.table.getD (h &&& d₁.ht0.sizemask) []) key with
      | some e => some (d₁, some e)
      | none =>
        if ¬dictIsRehashing d₁ then some (d₁, none)
        else some (d₁, chainFind (d₁.ht1.table.getD (h &&& d₁.ht1.sizemask) []) key)

/-- `dictGenericDelete(d, key, nofree)`: DICT_ERR when `ht[0].size == 0`;
else one opportunistic rehash step when mid-rehash, then unlink the first
matching entry from bucket `h & sizemask` of `ht[0]` or — only when
rehashing — of `ht[1]`, decrementing that generation's `used`.  The `nofree`
flag only controls the (no-op) destructors. -/
def dictGenericDelete (d : rDict) (key : Nat) : Option (rDict × Nat) :=
  if d.ht0.size = 0 then some (d, DICT_ERR)
  else
    match (if dictIsRehashing d then _dictRehashStep hash d else some d) with
    | none => none
    | some d₁ =>
      let h := hash key
      let i0 := h &&& d₁.ht0.sizemask
      match chainRemove (d₁.ht0.table.getD i0 []) key with
      | some c' =>
        let t' := { d₁.ht0 with table := d₁.ht0.table.set i0 c',
                                used := d₁.ht0.used - 1 }
        some ({ d₁ with ht0 := t' }, DICT_OK)
      | none =>
        if ¬dictIsRehashing d₁ then some (d₁, DICT_ERR)
        else
          let i1 := h &&& d₁.ht1.sizemask
          match chainRemove (d₁.ht1.table.getD i1 []) key with
          | some c' =>
            let t' := { d₁.ht1 with table := d₁.ht1.table.set i1 c',
                                    used := d₁.ht1.used - 1 }
            some ({ d₁ with ht1 := t' }, DICT_OK)
          | none => some (d₁, DICT_ERR)

/-- `dictDelete(ht, key) = dictGenericDelete(ht, key, 0)`. -/
def dictDelete (d : rDict) (key : Nat) : Option (rDict × Nat) :=
  dictGenericDelete hash d key

/-- The in-place `dictSetVal(d, entry, val)` of `dictReplace` applied to the
entry `dictFind` just returned: update the first `key` entry of the `ht[0]`
bucket if present there, else of the `ht[1]` bucket (where `dictFind` found
it). -/
def dictSetValByFind (d : rDict) (key val : Nat) : rDict :=
  let h := hash key
  let i0 := h &&& d.ht0.sizemask
  if (chainFind (d.ht0.table.getD i0 []) key).isSome then
    { d with ht0 := { d.ht0 with
        table := d.ht0.table.set i0 (chainSetVal (d.ht0.table.getD i0 []) key val) } }
  else
    let i1 := h &&& d.ht1.sizemask
    { d with ht1 := { d.ht1 with
        table := d.ht1.table.set i1 (chainSetVal (d.ht1.table.getD i1 []) key val) } }

/-- `dictReplace(d, key, val)`: try `dictAdd` (returns 1 on fresh insert);
on DICT_ERR, `dictFind` the existing entry and overwrite its value
(returns 0).  `dictSetVal` on a `None` find result would raise
(AttributeError) — modelled as `none`. -/
def dictReplace (d : rDict) (key val : Nat) : Option (rDict × Nat) :=
  match dictAdd hash dict_can_resize d key val with
  | none => none
  | some (d₁, st) =>
    if st = DICT_OK then some (d₁, 1)
    else
      match dictFind hash d₁ key with
      | none => none
      | some (_, none) => none
      | some (d₂, some _) => some (dictSetValByFind hash d₂ key val, 0)

end WithHash

/-- `rev(v)`: `int('{:0>64b}'.format(v)[::-1], 2)` — reverse the 64-bit
binary representation (all values fed to it in `dictScan` are < 2^64). -/
def rev (v : Nat) : Nat :=
  (List.range 64).foldl (fun acc i => acc * 2 + (if v.testBit i then 1 else 0)) 0

/-- Bitwise NOT on the wrapped 32-bit cursor: the value of
`MutableUInt32 val |= ~m` is `val | u32not m` (Python's `~m = -(m+1)`
wrapped modulo 2^32). -/
def u32not (m : Nat) : Nat := (2 ^ 32 - 1) - m % 2 ^ 32

section Scan

variable (hash : Nat → Nat)

/-- `dictScan(d, v, fn, privdata)`.  Returns the list of entries passed to
`fn` (in call order) and the cursor returned.  `v = MutableUInt32(v)` wraps
the incoming cursor to 32 bits.  When the dict is empty the cursor 0 is
returned with no visits.  When not rehashing, bucket `v & m0` of `t0` is
visited and the cursor is updated by `v |= ~m0` (still 32-bit wrapped),
`v = rev(v); v += 1; v = rev(v)` (64-bit reversals).  When rehashing, the
source reads the local `de` (`while de:`, line 579) before ever assigning
it — the smaller table's bucket is never fetched — so the call raises
UnboundLocalError: modelled as `none`. -/
def dictScan (d : rDict) (v : Nat) : Option (List (Nat × Nat) × Nat) :=
  let v32 := v % 2 ^ 32
  if dictSize d = 0 then some ([], 0)
  else if ¬dictIsRehashing d then
    let m0 := d.ht0.sizemask
    let visited := d.ht0.table.getD (v32 &&& m0) []
    let w := v32 ||| u32not m0
    some (visited, rev (rev w + 1))
  else none

end Scan

/-- `class dictIterator`.  `entry`/`nextEntry` hold the chain suffix headed
by the current `dictEntry` (`none` = Python `None`); `fingerprint` is kept
as a field but the fingerprint value (a hash over Python object identities,
`dictFingerprint`) is not representable and is irrelevant to the properties
below, so it is left at 0. -/
structure dictIterator where
  table : Nat
  index : Int
  safe : Bool
  entry : Option Chain
  nextEntry : Option Chain
  fingerprint : Nat
deriving Repr, DecidableEq

/-- `dictGetIterator(d)`: a fresh unsafe iterator; the dict itself is only
referenced, not modified. -/
def dictGetIterator (d : rDict) : rDict × dictIterator :=
  (d, ⟨0, -1, false, none, none, 0⟩)

/-- `dictGetSafeIterator(d)`: `dictGetIterator` with `safe = 1`.  Note that
the dict — in particular `d.iterators` — is untouched here. -/
def dictGetSafeIterator (d : rDict) : rDict × dictIterator :=
  let p := dictGetIterator d
  (p.1, { p.2 with safe := true })

/-- `it.entry = ht.table[idx]`: an empty bucket is Python `None`. -/
def chainOpt (c : Chain) : Option Chain := if c = [] then none else some c

/-- `it.d.ht[it.table]`. -/
def htOf (d : rDict) (t : Nat) : dictht := if t = 0 then d.ht0 else d.ht1

/-- Result of one `dictNext` call: `crash` = the bucket read
`ht.table[it.index]` raised IndexError (carrying the state at that moment),
`out` = the call returned (`e = none` ⇔ Python returned `None`). -/
inductive nextResult where
  | crash (d : rDict) (it : dictIterator)
  | out (d : rDict) (it : dictIterator) (e : Option (Nat × Nat))
deriving Repr, DecidableEq

/-- Dict state carried by a `nextResult`. -/
def nextResult.state : nextResult → rDict
  | .crash d _ => d
  | .out d _ _ => d

/-- The `while 1` loop of `dictNext`, with fuel (the loop advances
`it.index` or consumes the current chain on every iteration that does not
return, so it runs at most `2*(ht0.size + ht1.size) + 4` times; `none` =
fuel ran out and is never hit from `dictNext`).  On `it.entry == None`:
first-call bookkeeping (`safe` increments `d.iterators`; unsafe computes the
fingerprint), `it.index += 1`, the `it.index > ht.size` bound check (NOTE:
the source uses `>`, so `it.index == ht.size` falls through to the bucket
read `ht.table[it.index]`, one past the last bucket), table switch to
`ht[1]` mid-rehash, and the bucket read.  Otherwise `it.entry =
it.nextEntry`.  A non-`None` entry is returned after saving
`it.nextEntry = it.entry.next`. -/
def dictNextLoop : Nat → rDict → dictIterator → Option nextResult
  | 0, _, _ => none
  | fuel + 1, d, it =>
    match it.entry with
    | none =>
      let sz := (htOf d it.table).size
      let d₁ := if it.index = -1 ∧ it.table = 0 ∧ it.safe then
                  { d with iterators := d.iterators + 1 } else d
      let it₁ := { it with index := it.index + 1 }
      if it₁.index > (sz : Int) then
        if dictIsRehashing d₁ ∧ it₁.table = 0 then
          let it₂ := { it₁ with table := 1, index := 0 }
          match d₁.ht1.table.get? 0 with
          | none => some (.crash d₁ it₂)
          | some c =>
            match chainOpt c with
            | some (e :: rest) =>
              let it₃ := { it₂ with entry := some (e :: rest),
                                    nextEntry := chainOpt rest }
              some (.out d₁ it₃ (some e))
            | _ => dictNextLoop fuel d₁ { it₂ with entry := none }
        else some (.out d₁ it₁ none)
      else
        match (htOf d₁ it₁.table).table.get? it₁.index.toNat with
        | none => some (.crash d₁ it₁)
        | some c =>
          match chainOpt c with
          | some (e :: rest) =>
            let it₃ := { it₁ with entry := some (e :: rest),
                                  nextEntry := chainOpt rest }
            some (.out d₁ it₃ (some e))
          | _ => dictNextLoop fuel d₁ { it₁ with entry := none }
    | some _ =>
      match it.nextEntry with
      | some (e :: rest) =>
        let it₃ := { it with entry := some (e :: rest),
                             nextEntry := chainOpt rest }
        some (.out d it₃ (some e))
      | _ => dictNextLoop fuel d { it with entry := none }

/-- `dictNext(it)` with enough fuel for the loop to reach its return or its
IndexError. -/
def dictNext (d : rDict) (it : dictIterator) : Option nextResult :=
  dictNextLoop (2 * (d.ht0.size + d.ht1.size) + 4) d it

/-! ## Abstraction: the entries held by a dict, and well-formedness

`entriesL d` is the list of all live entries (both generations, bucket
order, chain order).  `WF hash d` collects the structural invariants every
dict reachable through the module's API satisfies; each conjunct is
decidable so concrete dicts can be checked by `decide`. -/

/-- All live entries of a dict: generation 0's buckets then generation 1's. -/
def entriesL (d : rDict) : List (Nat × Nat) :=
  d.ht0.table.flatten ++ d.ht1.table.flatten

/-- All live keys of a dict. -/
def keysL (d : rDict) : List Nat := (entriesL d).map Prod.fst

/-- Structural invariants of one generation: the bucket array has exactly
`size` buckets, `sizemask = size - 1`, `used` counts the entries, and every
entry sits in the bucket its masked hash selects. -/
def WFht (hash : Nat → Nat) (t : dictht) : Prop :=
  t.table.length = t.size ∧
  t.sizemask = t.size - 1 ∧
  t.used = (t.table.map List.length).sum ∧
  ∀ i < t.table.length, ∀ e ∈ t.table.getD i [], hash e.1 &&& t.sizemask = i

/-- Structural invariants of a dict: both generations well-formed,
`rehashidx ∈ [-1, ht0.size]`, mid-rehash both generations are allocated,
otherwise `ht1` is reset, all `ht0` buckets below the rehash cursor are
already empty, and keys are globally distinct. -/
def WF (hash : Nat → Nat) (d : rDict) : Prop :=
  WFht hash d.ht0 ∧ WFht hash d.ht1 ∧
  (-1 ≤ d.rehashidx ∧ d.rehashidx ≤ (d.ht0.size : Int)) ∧
  (dictIsRehashing d = true → 0 < d.ht0.size ∧ 0 < d.ht1.size) ∧
  (dictIsRehashing d = false → d.ht1 = emptyHt) ∧
  (∀ i < d.ht0.table.length, (i : Int) < d.rehashidx → d.ht0.table.getD i [] = []) ∧
  (keysL d).Nodup

instance decidableWFht (hash : Nat → Nat) (t : dictht) : Decidable (WFht hash t) :=
  inferInstanceAs (Decidable (t.table.length = t.size ∧
    t.sizemask = t.size - 1 ∧
    t.used = (t.table.map List.length).sum ∧
    ∀ i < t.table.length, ∀ e ∈ t.table.getD i [], hash e.1 &&& t.sizemask = i))

instance decidableWF (hash : Nat → Nat) (d : rDict) : Decidable (WF hash d) :=
  inferInstanceAs (Decidable (WFht hash d.ht0 ∧ WFht hash d.ht1 ∧
    (-1 ≤ d.rehashidx ∧ d.rehashidx ≤ (d.ht0.size : Int)) ∧
    (dictIsRehashing d = true → 0 < d.ht0.size ∧ 0 < d.ht1.size) ∧
    (dictIsRehashing d = false → d.ht1 = emptyHt) ∧
    (∀ i < d.ht0.table.length, (i : Int) < d.rehashidx → d.ht0.table.getD i [] = []) ∧
    (keysL d).Nodup))

/-- Number of non-empty buckets of a generation's table (the buckets a
`dictRehash` step must still migrate, plus the already-empty ones it skips
for free). -/
def bucketsNonempty (t : List Chain) : Nat :=
  (t.map fun c => if c = [] then 0 else 1).sum

/-- One dict operation, for quantifying over operation sequences (claim on
`size()`): the operations named by the spec sentence — add, replace,
delete, expand, rehash — applied through the module's API. -/
inductive DictOp where
  | add (k v : Nat)
  | replace (k v : Nat)
  | delete (k : Nat)
  | expand (n : Nat)
  | rehash (n : Nat)

/-- Apply one operation, keeping only the dict state (statuses/results are
dropped; `none` = the Python call would raise). -/
def applyOp (hash : Nat → Nat) (cr : Bool) (d : rDict) : DictOp → Option rDict
  | .add k v => (dictAdd hash cr d k v).map Prod.fst
  | .replace k v => (dictReplace hash cr d k v).map Prod.fst
  | .delete k => (dictGenericDelete hash d k).map Prod.fst
  | .expand n => some (dictExpand d n).1
  | .rehash n => (dictRehash hash d n).map Prod.fst

/-- Run a sequence of operations left to right. -/
def runOps (hash : Nat → Nat) (cr : Bool) (d : rDict) : List DictOp → Option rDict
  | [] => some d
  | op :: rest => (applyOp hash cr d op).bind fun d' => runOps hash cr d' rest

/-! ## Concrete states used as inputs below -/

/-- The identity hash on integer keys (`dictIdentityHashFunction`). -/
def idHash : Nat → Nat := fun k => k

/-- A dict of capacity 4 holding keys 0, 1, 2, 3 (one per bucket under the
identity hash), not rehashing. -/
def scanDict : rDict :=
  ⟨⟨[[(0, 10)], [(1, 11)], [(2, 12)], [(3, 13)]], 4, 3, 4⟩, emptyHt, -1, 0⟩

/-- A mid-rehash dict: key 0 still in `ht[0]` (capacity 4), key 1 already in
`ht[1]` (capacity 8), rehash cursor at 0, no safe iterators. -/
def dMid : rDict :=
  ⟨⟨[[(0, 0)], [], [], []], 4, 3, 1⟩,
   ⟨[[], [(1, 1)], [], [], [], [], [], []], 8, 7, 1⟩, 0, 0⟩

/-- A dict of capacity 8 holding 5 keys (`ht[0].used = 5 > 4`), not
rehashing. -/
def d5 : rDict :=
  ⟨⟨[[(0, 0)], [(1, 1)], [(2, 2)], [(3, 3)], [(4, 4)], [], [], []], 8, 7, 5⟩,
   emptyHt, -1, 0⟩

/-! ## C1: full-scan completeness fails -/

/-- The cursor sequence produced by feeding `dictScan`'s returned cursor
back in, starting from 0.  On a non-rehashing, non-empty dict `dictScan`
never returns `none` (the `none` fallback is unreachable for `scanDict`). -/
def scanCursorIter (d : rDict) : Nat → Nat
  | 0 => 0
  | k + 1 =>
    match dictScan d (scanCursorIter d k) with
    | some p => p.2
    | none => 0

/-- The entries `dictScan` passes to `fn` at step `k` of that sequence. -/
def scanVisitedAt (d : rDict) (k : Nat) : Option (List (Nat × Nat)) :=
  (dictScan d (scanCursorIter d k)).map Prod.fst

theorem scanDict_scan_zero :
    dictScan scanDict 0 = some ([(0, 10)], 9223372041149743100) := by decide

theorem scanDict_scan_fixed :
    dictScan scanDict 9223372041149743100
      = some ([(0, 10)], 9223372041149743100) := by decide

theorem scanCursorIter_const :
    ∀ k : Nat, scanCursorIter scanDict (k + 1) = 9223372041149743100 := by
  intro k
  induction k with
  | zero =>
    show (match dictScan scanDict (scanCursorIter scanDict 0) with
          | some p => p.2
          | none => 0) = _
    rw [show scanCursorIter scanDict 0 = 0 from rfl, scanDict_scan_zero]
  | succ k ih =>
    show (match dictScan scanDict (scanCursorIter scanDict (k + 1)) with
          | some p => p.2
          | none => 0) = _
    rw [ih, scanDict_scan_fixed]

/-- C1: Full-scan completeness FAILS on the code.  For the 4-key dict
`scanDict`, scanning repeatedly from cursor 0 always revisits only bucket 0
(the single entry `(0, 10)`); the returned cursor is the nonzero fixed point
9223372041149743100 = 0x80000000FFFFFFFC forever, so the cursor never
returns to 0 and keys 1, 2, 3 — present and never deleted — are never
passed to the visit callback.  (Cause: the cursor is wrapped to 32 bits by
`MutableUInt32` while `rev` reverses 64 bits, so `v |= ~m0` no longer sets
the high bits the reversed increment needs to carry through.) -/
theorem scan_full_completeness_fails :
    (∀ k : Nat, scanCursorIter scanDict (k + 1) = 9223372041149743100) ∧
    (9223372041149743100 : Nat) ≠ 0 ∧
    (∀ k : Nat, scanVisitedAt scanDict k = some [(0, 10)]) := by
  refine ⟨scanCursorIter_const, by decide, ?_⟩
  intro k
  cases k with
  | zero => simp [scanVisitedAt, scanCursorIter, scanDict_scan_zero]
  | succ k =>
    simp [scanVisitedAt, scanCursorIter_const, scanDict_scan_fixed]

/-! ## C3: dictResize computes min, not max -/

/-- C3: `dictResize` is NOT shrink-to-fit to `max(used, 4)`: the source
computes `minimal = min(d.ht[0].used, DICT_HT_INITIAL_SIZE)` (line 218).
On `d5` (not rehashing, resize enabled, `ht[0].used = 5 > 4`) the call
requests capacity 4 and `dictExpand` rejects it (`used > size`), returning
DICT_ERR with the dict unchanged — while `max(5, 4) = 5` (as the claim
states) would succeed and target 8, as the last conjunct shows. -/
theorem dictResize_requests_min_not_max :
    4 < d5.ht0.used ∧
    dictIsRehashing d5 = false ∧
    dictResize true d5 = (d5, DICT_ERR) ∧
    (dictExpand d5 (max d5.ht0.used DICT_HT_INITIAL_SIZE)).2 = DICT_OK ∧
    _dictNextPower (max d5.ht0.used DICT_HT_INITIAL_SIZE) = 8 := by decide

/-! ## C4: mid-rehash scan crashes -/

/-- C4: a mid-rehash `dictScan` call never visits anything and always
fails: the rehashing branch reads the local variable `de` (line 579) before
any assignment to it, raising UnboundLocalError.  In the embedding the
crash is `none`. -/
theorem scan_mid_rehash_crashes (d : rDict) (v : Nat)
    (hr : dictIsRehashing d = true) (hs : dictSize d ≠ 0) :
    dictScan d v = none := by
  simp [dictScan, hs, hr]

theorem scan_mid_rehash_crashes_witness : dictScan dMid 7 = none :=
  scan_mid_rehash_crashes dMid 7 (by decide) (by decide)

/-! ## C5: the concrete expansion scenario -/

/-- One `dictAdd` with value 0 under the identity hash, chained on `Option`. -/
def c5Step (d? : Option rDict) (k : Nat) : Option rDict :=
  d?.bind fun d => (dictAdd idHash true d k 0).map Prod.fst

/-- The dict after adding the first `n` of the keys
"a", "b", "c", "d", "e" (bytes 97–101) to a fresh dict. -/
def c5After (n : Nat) : Option rDict :=
  (List.take n [97, 98, 99, 100, 101]).foldl c5Step (some dictCreate)

/-- The dict after `j` further `dictRehash(d, 1)` calls. -/
def c5Rehash : Nat → Option rDict
  | 0 => c5After 5
  | j + 1 => (c5Rehash j).bind fun d => (dictRehash idHash d 1).map Prod.fst

/-- C5: the concrete expansion scenario, under the identity hash
(`dictIdentityHashFunction`) with keys as the bytes of "a"…"e".  After four
adds: capacity 4, `used = 4`, not rehashing.  The 5th add finds
`used(4) ≥ size(4)` and triggers expansion to real size 8 (`ht[1]`),
starting the rehash; `dictSize` is 5.  Five `dictRehash(d, 1)` calls fully
migrate the entries (4 non-empty buckets + the finalizing call) — within
the 8-call bound — and every one of rehash steps 0–8 keeps `dictSize` at 5;
from call 5 on the dict is no longer rehashing and all 5 entries live in
the new generation. -/
theorem concrete_expansion_scenario :
    ((c5After 4).map fun d => (d.ht0.size, d.ht0.used, dictIsRehashing d))
      = some (4, 4, false) ∧
    ((c5After 5).map fun d => (dictIsRehashing d, d.ht1.size, dictSize d))
      = some (true, 8, 5) ∧
    ((List.range 9).all fun j => (c5Rehash j).map dictSize = some 5) = true ∧
    ((c5Rehash 5).map fun d => (dictIsRehashing d, d.ht0.used, dictSize d))
      = some (false, 5, 5) ∧
    ((c5Rehash 8).map fun d => (dictIsRehashing d, d.ht0.used, dictSize d))
      = some (false, 5, 5) := by decide

/-! ## C6 (counterexample part): the safe-iterator counter is not
incremented at acquisition -/

/-- C6 counterexample: acquiring a safe iterator does NOT increment the
dict's `iterators` counter (that happens only inside the first `dictNext`
call), so rehashing is not suspended from the moment of acquisition: on the
mid-rehash dict `dMid`, right after `dictGetSafeIterator`, a `dictFind`
still advances rehashing — the rehash cursor moves from 0 to 1 and the
entry `(0, 0)` migrates from generation 0 to generation 1 (`ht[1].used`
goes from 1 to 2, `ht[0].used` from 1 to 0). -/
theorem safe_iterator_not_incremented_at_acquisition :
    (dictGetSafeIterator dMid).1 = dMid ∧
    (dictGetSafeIterator dMid).1.iterators = 0 ∧
    (dictGetSafeIterator dMid).2.safe = true ∧
    dMid.rehashidx = 0 ∧ dMid.ht1.used = 1 ∧ dMid.ht0.used = 1 ∧
    ((dictFind idHash dMid 1).map fun p =>
        (p.1.rehashidx, p.1.ht0.used, p.1.ht1.used)) = some (1, 0, 2) := by
  decide

/-! ## C10: iterator exhaustion crashes -/

/-- Iterate `dictNext`, threading the dict and iterator through `out`
results; a `crash` (or fuel exhaustion, unreachable here) is absorbing. -/
def iterNextStep : Option nextResult → Option nextResult
  | some (.out d it _) => dictNext d it
  | x => x

/-- `n` successive `dictNext` calls starting from a fresh unsafe iterator. -/
def iterFrom (d : rDict) : Nat → Option nextResult
  | 0 => some (.out d (dictGetIterator d).2 none)
  | n + 1 => iterNextStep (iterFrom d n)

def isCrash : Option nextResult → Bool
  | some (.crash _ _) => true
  | _ => false

def isYield : Option nextResult → Bool
  | some (.out _ _ (some _)) => true
  | _ => false

/-- Bucket index at which the crash occurred. -/
def crashIndex : Option nextResult → Option Int
  | some (.crash _ it) => some it.index
  | _ => none

/-- C10: iterator exhaustion is NOT safe.  The bound check uses
`it.index > ht.size` (line 475) instead of `>=`, so the call that should
end the traversal reads `ht.table[size]` — one past the end — and raises
IndexError instead of returning `None`.  On the empty dict the very first
`dictNext` crashes (index 0, size 0); on the 4-key dict `scanDict` the
first four calls yield the four live entries and the fifth crashes at
bucket index 4 = `ht[0].size`, which is not `< size`. -/
theorem iterator_exhaustion_crashes :
    isCrash (iterFrom dictCreate 1) = true ∧
    crashIndex (iterFrom dictCreate 1) = some 0 ∧
    dictCreate.ht0.size = 0 ∧
    ((List.range 4).all fun j => isYield (iterFrom scanDict (j + 1))) = true ∧
    isCrash (iterFrom scanDict 5) = true ∧
    crashIndex (iterFrom scanDict 5) = some 4 ∧
    scanDict.ht0.size = 4 := by decide

/-! ## List helper lemmas (bucket arrays) -/

theorem getD_of_le (t : List Chain) (i : Nat) (h : t.length ≤ i) :
    t.getD i [] = [] := by
  simp [List.getD_eq_getElem?_getD, List.getElem?_eq_none h]

theorem getD_lt (t : List Chain) (i : Nat) (h : i < t.length) :
    t.getD i [] = t[i] := List.getD_eq_getElem t [] h

theorem mem_getD_mem_flatten {t : List Chain} {i : Nat} {e : Nat × Nat}
    (he : e ∈ t.getD i []) : e ∈ t.flatten := by
  by_cases h : i < t.length
  · exact List.mem_flatten.2 ⟨t[i], List.getElem_mem h, (getD_lt t i h) ▸ he⟩
  · rw [getD_of_le t i (Nat.le_of_not_lt h)] at he
    cases he

theorem mem_flatten_iff_getD {t : List Chain} {e : Nat × Nat} :
    e ∈ t.flatten ↔ ∃ i, i < t.length ∧ e ∈ t.getD i [] := by
  constructor
  · intro h
    obtain ⟨c, hc, hec⟩ := List.mem_flatten.1 h
    obtain ⟨i, hi, rfl⟩ := List.getElem_of_mem hc
    exact ⟨i, hi, (getD_lt t i hi).symm ▸ hec⟩
  · rintro ⟨i, _, he⟩
    exact mem_getD_mem_flatten he

theorem getD_set_self (t : List Chain) (i : Nat) (c : Chain)
    (h : i < t.length) : (t.set i c).getD i [] = c := by
  rw [getD_lt _ i (by simpa using h)]
  exact List.getElem_set_self _

theorem getD_set_ne (t : List Chain) (i j : Nat) (c : Chain) (h : i ≠ j) :
    (t.set i c).getD j [] = t.getD j [] := by
  by_cases hj : j < t.length
  · rw [getD_lt _ j (by simpa using hj), getD_lt _ j hj]
    exact List.getElem_set_ne h _
  · rw [getD_of_le _ j (by simpa using Nat.le_of_not_lt hj),
        getD_of_le _ j (Nat.le_of_not_lt hj)]

theorem set_getD_self (t : List Chain) (i : Nat) (h : i < t.length) :
    t.set i (t.getD i []) = t := by
  induction t generalizing i with
  | nil => cases h
  | cons a tl ih =>
    cases i with
    | zero => simp [List.getD]
    | succ i =>
      have hi : i < tl.length := by simpa using h
      show a :: tl.set i (tl.getD i []) = a :: tl
      rw [ih i hi]

theorem map_sum_set (f : Chain → Nat) (t : List Chain) (i : Nat) (c : Chain)
    (h : i < t.length) :
    ((t.set i c).map f).sum + f (t.getD i []) = (t.map f).sum + f c := by
  induction t generalizing i with
  | nil => cases h
  | cons a tl ih =>
    cases i with
    | zero => simp [List.getD]; omega
    | succ i =>
      have hi : i < tl.length := by simpa using h
      have := ih i hi
      simp only [List.set, List.map, List.sum_cons, List.getD_cons_succ]
      omega

theorem flatten_set_perm (t : List Chain) (i : Nat) (c : Chain)
    (h : i < t.length) :
    (t.set i c).flatten ~ c ++ (t.set i []).flatten := by
  induction t generalizing i with
  | nil => cases h
  | cons a tl ih =>
    cases i with
    | zero => simp
    | succ i =>
      have hi : i < tl.length := by simpa using h
      have hih := ih i hi
      calc ((a :: tl).set (i + 1) c).flatten
          = a ++ (tl.set i c).flatten := by simp
        _ ~ a ++ (c ++ (tl.set i []).flatten) := hih.append_left a
        _ = (a ++ c) ++ (tl.set i []).flatten := (List.append_assoc ..).symm
        _ ~ (c ++ a) ++ (tl.set i []).flatten :=
            (List.perm_append_comm).append_right _
        _ = c ++ (a ++ (tl.set i []).flatten) := List.append_assoc ..
        _ = c ++ ((a :: tl).set (i + 1) []).flatten := by simp

theorem flatten_decomp (t : List Chain) (i : Nat) (h : i < t.length) :
    t.flatten ~ t.getD i [] ++ (t.set i []).flatten := by
  have := flatten_set_perm t i (t.getD i []) h
  rwa [set_getD_self t i h] at this

/-! ## Chain lemmas -/

theorem chainFind_some {c : Chain} {k : Nat} {e : Nat × Nat}
    (h : chainFind c k = some e) : e.1 = k ∧ e ∈ c := by
  induction c with
  | nil => cases h
  | cons a rest ih =>
    by_cases ha : a.1 = k
    · simp [chainFind, ha] at h
      subst h
      exact ⟨ha, List.mem_cons_self a rest⟩
    · simp [chainFind, ha] at h
      obtain ⟨h1, h2⟩ := ih h
      exact ⟨h1, List.mem_cons_of_mem a h2⟩

theorem chainFind_none_iff {c : Chain} {k : Nat} :
    chainFind c k = none ↔ ∀ e ∈ c, e.1 ≠ k := by
  induction c with
  | nil => simp [chainFind]
  | cons a rest ih =>
    by_cases ha : a.1 = k
    · simp [chainFind, ha]
    · simp [chainFind, ha, ih]

theorem chainFind_isSome_of_mem {c : Chain} {k v : Nat}
    (h : (k, v) ∈ c) : (chainFind c k).isSome = true := by
  cases hf : chainFind c k with
  | some e => rfl
  | none => exact absurd rfl (chainFind_none_iff.1 hf (k, v) h)

theorem chainRemove_none_iff {c : Chain} {k : Nat} :
    chainRemove c k = none ↔ ∀ e ∈ c, e.1 ≠ k := by
  induction c with
  | nil => simp [chainRemove]
  | cons a rest ih =>
    by_cases ha : a.1 = k
    · simp [chainRemove, ha]
    · simp [chainRemove, ha, ih]

theorem chainRemove_some_perm {c c' : Chain} {k : Nat}
    (h : chainRemove c k = some c') : ∃ v, c ~ (k, v) :: c' := by
  induction c generalizing c' with
  | nil => cases h
  | cons a rest ih =>
    by_cases ha : a.1 = k
    · simp [chainRemove, ha] at h
      subst h
      exact ⟨a.2, by rw [show ((k, a.2) : Nat × Nat) = a by rw [← ha]]⟩
    · simp [chainRemove, ha] at h
      obtain ⟨r', hr', rfl⟩ := h
      obtain ⟨v, hv⟩ := ih hr'
      exact ⟨v, ((hv.cons a).trans (List.Perm.swap _ _ _))⟩

theorem chainSetVal_map_fst (c : Chain) (k v : Nat) :
    (chainSetVal c k v).map Prod.fst = c.map Prod.fst := by
  induction c with
  | nil => rfl
  | cons a rest ih =>
    by_cases ha : a.1 = k
    · simp [chainSetVal, ha]
    · simp [chainSetVal, ha, ih]

theorem chainSetVal_key_mem {c : Chain} {k v : Nat} {e : Nat × Nat}
    (h : e ∈ chainSetVal c k v) : ∃ e₀ ∈ c, e₀.1 = e.1 := by
  induction c with
  | nil => cases h
  | cons a rest ih =>
    by_cases ha : a.1 = k
    · simp [chainSetVal, ha] at h
      rcases h with h | h
      · exact ⟨a, List.mem_cons_self a rest, by rw [h]; exact ha⟩
      · exact ⟨e, List.mem_cons_of_mem a h, rfl⟩
    · simp [chainSetVal, ha] at h
      rcases h with h | h
      · exact ⟨a, List.mem_cons_self a rest, by rw [h]⟩
      · obtain ⟨e₀, he₀, hk⟩ := ih h
        exact ⟨e₀, List.mem_cons_of_mem a he₀, hk⟩

theorem chainSetVal_length (c : Chain) (k v : Nat) :
    (chainSetVal c k v).length = c.length := by
  induction c with
  | nil => rfl
  | cons a rest ih =>
    by_cases ha : a.1 = k
    · simp [chainSetVal, ha]
    · simp [chainSetVal, ha, ih]

/-! ## Well-formed generation lemmas -/

theorem WFht.len {hash : Nat → Nat} {t : dictht} (h : WFht hash t) :
    t.table.length = t.size := h.1

theorem WFht.mask {hash : Nat → Nat} {t : dictht} (h : WFht hash t) :
    t.sizemask = t.size - 1 := h.2.1

theorem WFht.used_eq {hash : Nat → Nat} {t : dictht} (h : WFht hash t) :
    t.used = (t.table.map List.length).sum := h.2.2.1

theorem WFht.placed {hash : Nat → Nat} {t : dictht} (h : WFht hash t) :
    ∀ i < t.table.length, ∀ e ∈ t.table.getD i [], hash e.1 &&& t.sizemask = i :=
  h.2.2.2

/-- In a non-trivial well-formed generation every masked hash is a valid
bucket index. -/
theorem WFht.idx_lt {hash : Nat → Nat} {t : dictht} (h : WFht hash t)
    (hs : 0 < t.size) (x : Nat) : x &&& t.sizemask < t.table.length := by
  have h1 := h.len
  have h2 := h.mask
  have h3 : x &&& t.sizemask ≤ t.sizemask := Nat.and_le_right
  omega

/-- In a well-formed generation an entry can only live in the bucket its
masked hash selects. -/
theorem WFht.mem_bucket {hash : Nat → Nat} {t : dictht} {k v : Nat}
    (h : WFht hash t) (hm : (k, v) ∈ t.table.flatten) :
    (k, v) ∈ t.table.getD (hash k &&& t.sizemask) [] := by
  obtain ⟨i, hi, he⟩ := mem_flatten_iff_getD.1 hm
  have hp := h.placed i hi (k, v) he
  rw [show hash (k, v).1 &&& t.sizemask = i from hp]
  exact he

/-- Replacing the chain of one bucket preserves well-formedness, provided
the new chain is placed correctly and the new `used` accounts for the
length change. -/
theorem WFht_setBucket {hash : Nat → Nat} {t : dictht} {idx : Nat}
    {new : Chain} {u : Nat} (h : WFht hash t) (hidx : idx < t.table.length)
    (hpl : ∀ e ∈ new, hash e.1 &&& t.sizemask = idx)
    (hu : u + (t.table.getD idx []).length = t.used + new.length) :
    WFht hash ⟨t.table.set idx new, t.size, t.sizemask, u⟩ := by
  have hsum := map_sum_set List.length t.table idx new hidx
  refine ⟨by simpa using h.len, h.mask, ?_, ?_⟩
  · have := h.used_eq
    simp only at *
    omega
  · intro j hj e he
    simp only [List.length_set] at hj
    by_cases hji : j = idx
    · subst hji
      rw [getD_set_self t.table j new hidx] at he
      exact hpl e he
    · rw [getD_set_ne t.table idx j new (fun hh => hji hh.symm)] at he
      exact h.placed j hj e he

/-- A freshly allocated generation is well-formed. -/
theorem WFht_newHt (hash : Nat → Nat) (n : Nat) : WFht hash (newHt n) := by
  refine ⟨by simp [newHt], rfl, by simp [newHt], ?_⟩
  intro i hi e he
  simp only [newHt, List.length_replicate] at hi
  rw [getD_lt _ i (by simpa [newHt] using hi)] at he
  simp only [newHt] at he
  rw [List.getElem_replicate] at he
  cases he

theorem WFht_emptyHt (hash : Nat → Nat) : WFht hash emptyHt :=
  ⟨rfl, rfl, rfl, fun i hi => absurd hi (by simp [emptyHt])⟩

/-- `insertHt` at the key's own bucket: well-formedness is preserved and the
flattened contents gain exactly the new pair. -/
theorem insertHt_spec {hash : Nat → Nat} {t : dictht} (k v : Nat)
    (h : WFht hash t) (hs : 0 < t.size) :
    WFht hash (insertHt t (hash k &&& t.sizemask) k v) ∧
    (insertHt t (hash k &&& t.sizemask) k v).table.flatten ~
      (k, v) :: t.table.flatten := by
  set idx := hash k &&& t.sizemask with hidxdef
  have hidx : idx < t.table.length := h.idx_lt hs (hash k)
  constructor
  · refine WFht_setBucket h hidx ?_ ?_
    · intro e he
      rcases List.mem_cons.1 he with rfl | he
      · exact hidxdef.symm
      · exact h.placed idx hidx e (by simpa using he)
    · simp only [insertHt, List.length_cons]
      omega
  · have h1 := flatten_set_perm t.table idx ((k, v) :: t.table.getD idx []) hidx
    have h2 := (flatten_decomp t.table idx hidx).symm
    calc (insertHt t idx k v).table.flatten
        ~ ((k, v) :: t.table.getD idx []) ++ (t.table.set idx []).flatten := h1
      _ = (k, v) :: (t.table.getD idx [] ++ (t.table.set idx []).flatten) := rfl
      _ ~ (k, v) :: t.table.flatten := h2.cons (k, v)

/-! ## findBucketFrom lemmas -/

theorem findBucketAux_some {l : List Chain} {i j : Nat}
    (h : findBucketAux l i = some j) :
    i ≤ j ∧ j - i < l.length ∧ l.getD (j - i) [] ≠ [] ∧
      ∀ m < j - i, l.getD m [] = [] := by
  induction l generalizing i with
  | nil => cases h
  | cons c rest ih =>
    match c with
    | [] =>
      have h' : findBucketAux rest (i + 1) = some j := h
      obtain ⟨h1, h2, h3, h4⟩ := ih h'
      refine ⟨by omega, by simp; omega, ?_, ?_⟩
      · have : j - i = (j - (i + 1)) + 1 := by omega
        rw [this, List.getD_cons_succ]
        exact h3
      · intro m hm
        cases m with
        | zero => simp [List.getD]
        | succ m =>
          rw [List.getD_cons_succ]
          exact h4 m (by omega)
    | e :: cc =>
      have h' : i = j := by simpa [findBucketAux] using h
      subst h'
      refine ⟨Nat.le_refl i, by simp, by simp [List.getD], ?_⟩
      intro m hm
      omega

theorem findBucketAux_isSome {l : List Chain} (i : Nat)
    (h : ∃ m < l.length, l.getD m [] ≠ []) :
    (findBucketAux l i).isSome = true := by
  induction l generalizing i with
  | nil =>
    obtain ⟨m, hm, _⟩ := h
    cases hm
  | cons c rest ih =>
    match c with
    | [] =>
      obtain ⟨m, hm, hne⟩ := h
      cases m with
      | zero => exact absurd (by simp [List.getD]) hne
      | succ m =>
        exact ih (i + 1) ⟨m, by simpa using hm, by rwa [List.getD_cons_succ] at hne⟩
    | e :: cc => rfl

theorem getD_drop (t : List Chain) (r m : Nat) :
    (t.drop r).getD m [] = t.getD (r + m) [] := by
  simp [List.getD_eq_getElem?_getD, List.getElem?_drop]

/-- Specification of `findBucketFrom` on success: the returned index is in
range, at or past the start, its bucket is non-empty, and every bucket from
the start up to it is empty. -/
theorem findBucketFrom_some {t : List Chain} {i j : Nat}
    (h : findBucketFrom t i = some j) :
    i ≤ j ∧ j < t.length ∧ t.getD j [] ≠ [] ∧
      ∀ m, i ≤ m → m < j → t.getD m [] = [] := by
  obtain ⟨h1, h2, h3, h4⟩ := findBucketAux_some h
  rw [List.length_drop] at h2
  refine ⟨h1, by omega, ?_, ?_⟩
  · rw [getD_drop, show i + (j - i) = j by omega] at h3
    exact h3
  · intro m him hmj
    have := h4 (m - i) (by omega)
    rwa [getD_drop, show i + (m - i) = m by omega] at this

/-- `findBucketFrom` finds a bucket whenever a non-empty one exists at or
past the start index. -/
theorem findBucketFrom_isSome {t : List Chain} {i : Nat}
    (h : ∃ m, i ≤ m ∧ m < t.length ∧ t.getD m [] ≠ []) :
    (findBucketFrom t i).isSome = true := by
  obtain ⟨m, him, hm, hne⟩ := h
  refine findBucketAux_isSome i ⟨m - i, ?_, ?_⟩
  · rw [List.length_drop]
    omega
  · rwa [getD_drop, show i + (m - i) = m by omega]

/-! ## Well-formed dict lemmas -/

theorem WF.wfht0 {hash : Nat → Nat} {d : rDict} (h : WF hash d) :
    WFht hash d.ht0 := h.1

theorem WF.wfht1 {hash : Nat → Nat} {d : rDict} (h : WF hash d) :
    WFht hash d.ht1 := h.2.1

theorem WF.ridx_bounds {hash : Nat → Nat} {d : rDict} (h : WF hash d) :
    -1 ≤ d.rehashidx ∧ d.rehashidx ≤ (d.ht0.size : Int) := h.2.2.1

theorem WF.rehash_pos {hash : Nat → Nat} {d : rDict} (h : WF hash d) :
    dictIsRehashing d = true → 0 < d.ht0.size ∧ 0 < d.ht1.size := h.2.2.2.1

theorem WF.not_rehash_ht1 {hash : Nat → Nat} {d : rDict} (h : WF hash d) :
    dictIsRehashing d = false → d.ht1 = emptyHt := h.2.2.2.2.1

theorem WF.prefix_empty {hash : Nat → Nat} {d : rDict} (h : WF hash d) :
    ∀ i < d.ht0.table.length, (i : Int) < d.rehashidx →
      d.ht0.table.getD i [] = [] := h.2.2.2.2.2.1

theorem WF.nodupKeys {hash : Nat → Nat} {d : rDict} (h : WF hash d) :
    (keysL d).Nodup := h.2.2.2.2.2.2

theorem rehashing_iff {d : rDict} :
    dictIsRehashing d = true ↔ d.rehashidx ≠ -1 := by
  simp [dictIsRehashing]

theorem not_rehashing_iff {d : rDict} :
    dictIsRehashing d = false ↔ d.rehashidx = -1 := by
  simp [dictIsRehashing]

/-- The rehash cursor of a mid-rehash well-formed dict is a valid `Nat`. -/
theorem WF.ridx_nonneg {hash : Nat → Nat} {d : rDict} (h : WF hash d)
    (hre : dictIsRehashing d = true) : 0 ≤ d.rehashidx := by
  have := h.ridx_bounds.1
  have := rehashing_iff.1 hre
  omega

/-- Under the `used` bookkeeping invariant, `dictSize` is the number of live
entries. -/
theorem WF.size_eq_length {hash : Nat → Nat} {d : rDict} (h : WF hash d) :
    dictSize d = (entriesL d).length := by
  have h0 := h.wfht0.used_eq
  have h1 := h.wfht1.used_eq
  simp only [dictSize, entriesL, List.length_append, List.length_flatten]
  omega

theorem getD_length_le_sum (t : List Chain) (i : Nat) (h : i < t.length) :
    (t.getD i []).length ≤ (t.map List.length).sum := by
  have hp := (flatten_decomp t i h).length_eq
  rw [List.length_append, List.length_flatten] at hp
  omega

theorem sum_ne_exists {t : List Chain} (h : (t.map List.length).sum ≠ 0) :
    ∃ j < t.length, t.getD j [] ≠ [] := by
  induction t with
  | nil => simp at h
  | cons a tl ih =>
    by_cases ha : a = []
    · subst ha
      simp only [List.map, List.sum_cons, List.length_nil, Nat.zero_add] at h
      obtain ⟨j, hj, hne⟩ := ih h
      exact ⟨j + 1, by simpa using hj, by rwa [List.getD_cons_succ]⟩
    · exact ⟨0, by simp, by simpa [List.getD] using ha⟩

/-- In a mid-rehash well-formed dict with entries left in `ht[0]`, there is a
non-empty bucket at or past the rehash cursor. -/
theorem WF.exists_nonempty_bucket {hash : Nat → Nat} {d : rDict}
    (h : WF hash d) (hre : dictIsRehashing d = true) (hu : d.ht0.used ≠ 0) :
    ∃ m, d.rehashidx.toNat ≤ m ∧ m < d.ht0.table.length ∧
      d.ht0.table.getD m [] ≠ [] := by
  have hsum : (d.ht0.table.map List.length).sum ≠ 0 := by
    have := h.wfht0.used_eq
    omega
  obtain ⟨j, hj, hne⟩ := sum_ne_exists hsum
  refine ⟨j, ?_, hj, hne⟩
  by_contra hcon
  have hlt : (j : Int) < d.rehashidx := by
    have := h.ridx_nonneg hre
    omega
  exact hne (h.prefix_empty j hj hlt)

/-! ## Migration lemmas -/

theorem migrateChain_spec {hash : Nat → Nat} {t1 : dictht} (c : Chain)
    (h : WFht hash t1) (hs : 0 < t1.size) :
    WFht hash (migrateChain hash t1 c) ∧
    (migrateChain hash t1 c).table.flatten ~ c ++ t1.table.flatten ∧
    (migrateChain hash t1 c).size = t1.size ∧
    (migrateChain hash t1 c).sizemask = t1.sizemask ∧
    (migrateChain hash t1 c).used = t1.used + c.length := by
  induction c generalizing t1 with
  | nil => exact ⟨h, by simp [migrateChain], rfl, rfl, by simp [migrateChain]⟩
  | cons e rest ih =>
    have hstep : migrateChain hash t1 (e :: rest)
        = migrateChain hash (insertHt t1 (hash e.1 &&& t1.sizemask) e.1 e.2) rest := rfl
    obtain ⟨hwf', hperm'⟩ := insertHt_spec e.1 e.2 h hs
    have heq : ((e.1, e.2) : Nat × Nat) = e := rfl
    obtain ⟨ih1, ih2, ih3, ih4, ih5⟩ := ih hwf' (by simpa [insertHt] using hs)
    rw [heq] at hperm'
    refine ⟨hstep ▸ ih1, ?_, by rw [hstep, ih3]; rfl, by rw [hstep, ih4]; rfl, ?_⟩
    · rw [hstep]
      calc (migrateChain hash (insertHt t1 (hash e.1 &&& t1.sizemask) e.1 e.2) rest).table.flatten
          ~ rest ++ (insertHt t1 (hash e.1 &&& t1.sizemask) e.1 e.2).table.flatten := ih2
        _ ~ rest ++ (e :: t1.table.flatten) := hperm'.append_left rest
        _ ~ e :: (rest ++ t1.table.flatten) := List.perm_middle
        _ = (e :: rest) ++ t1.table.flatten := rfl
    · rw [hstep, ih5]
      simp [insertHt]
      omega

/-- Properties of one migrated bucket: well-formedness and the entry
multiset are preserved, the dict stays mid-rehash, the cursor strictly
advances, exactly one non-empty `ht[0]` bucket becomes empty, and sizes,
`iterators` and `dictSize` are unchanged. -/
theorem rehashMigrateBucket_spec {hash : Nat → Nat} {d : rDict} {idx : Nat}
    (hwf : WF hash d) (hre : dictIsRehashing d = true)
    (hfind : findBucketFrom d.ht0.table d.rehashidx.toNat = some idx) :
    WF hash (rehashMigrateBucket hash d idx) ∧
    entriesL (rehashMigrateBucket hash d idx) ~ entriesL d ∧
    dictIsRehashing (rehashMigrateBucket hash d idx) = true ∧
    (rehashMigrateBucket hash d idx).iterators = d.iterators ∧
    dictSize (rehashMigrateBucket hash d idx) = dictSize d ∧
    bucketsNonempty (rehashMigrateBucket hash d idx).ht0.table + 1
      = bucketsNonempty d.ht0.table ∧
    d.rehashidx < (rehashMigrateBucket hash d idx).rehashidx ∧
    (rehashMigrateBucket hash d idx).ht0.size = d.ht0.size ∧
    (rehashMigrateBucket hash d idx).ht1.size = d.ht1.size ∧
    (rehashMigrateBucket hash d idx).ht1.sizemask = d.ht1.sizemask := by
  obtain ⟨hle, hlt, hne, hpref⟩ := findBucketFrom_some hfind
  set chain := d.ht0.table.getD idx [] with hchain
  have hchlen : chain.length ≤ d.ht0.used := by
    have h1 := getD_length_le_sum d.ht0.table idx hlt
    have h2 := hwf.wfht0.used_eq
    rw [← hchain] at h1
    omega
  have hms := @migrateChain_spec hash _ chain hwf.wfht1
    (hwf.rehash_pos hre).2
  obtain ⟨hm1, hm2, hm3, hm4, hm5⟩ := hms
  have hwf0' : WFht hash
      ⟨d.ht0.table.set idx [], d.ht0.size, d.ht0.sizemask,
        d.ht0.used - chain.length⟩ := by
    refine WFht_setBucket hwf.wfht0 hlt (by intro e he; cases he) ?_
    simp only [List.length_nil]
    rw [← hchain]
    omega
  have hperm : entriesL (rehashMigrateBucket hash d idx) ~ entriesL d := by
    have hd := flatten_decomp d.ht0.table idx hlt
    calc entriesL (rehashMigrateBucket hash d idx)
        = (d.ht0.table.set idx []).flatten
            ++ (migrateChain hash d.ht1 chain).table.flatten := rfl
      _ ~ (d.ht0.table.set idx []).flatten ++ (chain ++ d.ht1.table.flatten) :=
          hm2.append_left _
      _ = ((d.ht0.table.set idx []).flatten ++ chain) ++ d.ht1.table.flatten :=
          (List.append_assoc ..).symm
      _ ~ (chain ++ (d.ht0.table.set idx []).flatten) ++ d.ht1.table.flatten :=
          (List.perm_append_comm).append_right _
      _ ~ d.ht0.table.flatten ++ d.ht1.table.flatten :=
          (hd.symm).append_right _
      _ = entriesL d := rfl
  have hreh' : dictIsRehashing (rehashMigrateBucket hash d idx) = true := by
    simp only [rehashMigrateBucket, dictIsRehashing]
    simp
    omega
  refine ⟨?_, hperm, hreh', rfl, ?_, ?_, ?_, rfl, ?_, ?_⟩
  · refine ⟨hwf0', hm1, ?_, ?_, ?_, ?_, ?_⟩
    · constructor
      · simp only [rehashMigrateBucket]
        omega
      · simp only [rehashMigrateBucket]
        have : idx < d.ht0.size := by rw [← hwf.wfht0.len]; exact hlt
        simp
        omega
    · intro _
      refine ⟨?_, ?_⟩
      · show 0 < d.ht0.size
        exact (hwf.rehash_pos hre).1
      · show 0 < (migrateChain hash d.ht1 (d.ht0.table.getD idx [])).size
        rw [← hchain, hm3]
        exact (hwf.rehash_pos hre).2
    · intro hfalse
      rw [hreh'] at hfalse
      cases hfalse
    · intro i hi hilt
      simp only [rehashMigrateBucket, List.length_set] at hi hilt ⊢
      by_cases hidx : i = idx
      · subst hidx
        exact getD_set_self d.ht0.table i [] hlt
      · rw [getD_set_ne d.ht0.table idx i [] (fun hh => hidx hh.symm)]
        by_cases hir : (i : Int) < d.rehashidx
        · exact hwf.prefix_empty i hi hir
        · refine hpref i ?_ ?_
          · have := hwf.ridx_nonneg hre
            omega
          · omega
    · have : keysL (rehashMigrateBucket hash d idx) ~ keysL d :=
        hperm.map Prod.fst
      exact this.nodup_iff.2 hwf.nodupKeys
  · show (d.ht0.used - chain.length) + (migrateChain hash d.ht1 chain).used
        = dictSize d
    rw [hm5]
    simp only [dictSize]
    omega
  · have hmap := map_sum_set (fun c => if c = [] then 0 else 1)
      d.ht0.table idx [] hlt
    simp only [if_pos rfl, ← hchain, if_neg hne] at hmap
    simpa [bucketsNonempty, rehashMigrateBucket] using hmap
  · simp only [rehashMigrateBucket]
    omega
  · simpa using hm3
  · simpa using hm4

/-- Properties of rehash finalization (`ht[0].used == 0` branch):
well-formedness, the entry multiset, `iterators` and `dictSize` are all
preserved, and the dict leaves the rehashing state. -/
theorem finalizeRehash_spec {hash : Nat → Nat} {d : rDict} (hwf : WF hash d)
    (hu : d.ht0.used = 0) :
    WF hash (finalizeRehash d) ∧
    entriesL (finalizeRehash d) ~ entriesL d ∧
    (finalizeRehash d).iterators = d.iterators ∧
    dictSize (finalizeRehash d) = dictSize d ∧
    dictIsRehashing (finalizeRehash d) = false := by
  have hflat : d.ht0.table.flatten = [] := by
    refine List.eq_nil_of_length_eq_zero ?_
    rw [List.length_flatten]
    have := hwf.wfht0.used_eq
    omega
  have heq : entriesL (finalizeRehash d) = entriesL d := by
    simp [entriesL, finalizeRehash, emptyHt, hflat]
  have hreh : dictIsRehashing (finalizeRehash d) = false := by
    simp [finalizeRehash, dictIsRehashing]
  refine ⟨?_, by rw [heq], rfl, ?_, hreh⟩
  · refine ⟨hwf.wfht1, WFht_emptyHt hash, ?_, ?_, fun _ => rfl, ?_, ?_⟩
    · constructor
      · simp [finalizeRehash]
      · show (-1 : Int) ≤ ((d.ht1.size : Nat) : Int)
        omega
    · intro hcon
      rw [hreh] at hcon
      cases hcon
    · intro i hi hilt
      simp only [finalizeRehash] at hilt
      omega
    · have : keysL (finalizeRehash d) = keysL d := by rw [keysL, heq]; rfl
      rw [this]
      exact hwf.nodupKeys
  · show d.ht1.used + emptyHt.used = dictSize d
    simp only [dictSize, emptyHt, hu]
    omega

/-- The rehash loop under well-formedness: it never crashes, and preserves
well-formedness, the entry multiset, the iterator counter and `dictSize`. -/
theorem dictRehashLoop_spec (hash : Nat → Nat) :
    ∀ (n : Nat) (d : rDict), WF hash d → dictIsRehashing d = true →
    ∃ d' r, dictRehashLoop hash d n = some (d', r) ∧ WF hash d' ∧
      entriesL d' ~ entriesL d ∧ d'.iterators = d.iterators ∧
      dictSize d' = dictSize d := by
  intro n
  induction n with
  | zero =>
    intro d hwf _
    exact ⟨d, 1, rfl, hwf, .refl _, rfl, rfl⟩
  | succ n ih =>
    intro d hwf hre
    by_cases hu : d.ht0.used = 0
    · obtain ⟨f1, f2, f3, f4, _⟩ := finalizeRehash_spec hwf hu
      exact ⟨finalizeRehash d, 0, by simp [dictRehashLoop, hu], f1, f2, f3, f4⟩
    · have hsome := findBucketFrom_isSome (hwf.exists_nonempty_bucket hre hu)
      obtain ⟨idx, hfind⟩ := Option.isSome_iff_exists.1 hsome
      obtain ⟨s1, s2, s3, s4, s5, _, _, _, _, _⟩ :=
        rehashMigrateBucket_spec hwf hre hfind
      obtain ⟨d', r, hloop, hwf', hperm', hit', hsz'⟩ :=
        ih (rehashMigrateBucket hash d idx) s1 s3
      refine ⟨d', r, ?_, hwf', hperm'.trans s2, hit'.trans s4, hsz'.trans s5⟩
      simp only [dictRehashLoop, hu, if_neg hu, hfind]
      exact hloop

/-- `dictRehash` under well-formedness: total, and preserves
well-formedness, the entry multiset, the iterator counter and `dictSize`. -/
theorem dictRehash_spec {hash : Nat → Nat} {d : rDict} (hwf : WF hash d)
    (n : Nat) :
    ∃ d' r, dictRehash hash d n = some (d', r) ∧ WF hash d' ∧
      entriesL d' ~ entriesL d ∧ d'.iterators = d.iterators ∧
      dictSize d' = dictSize d := by
  by_cases hre : dictIsRehashing d = true
  · obtain ⟨d', r, h1, h2, h3, h4, h5⟩ := dictRehashLoop_spec hash n d hwf hre
    exact ⟨d', r, by simp [dictRehash, hre, h1], h2, h3, h4, h5⟩
  · have hre' : dictIsRehashing d = false := by simpa using hre
    exact ⟨d, 0, by simp [dictRehash, hre'], hwf, .refl _, rfl, rfl⟩

/-- `_dictRehashStep` under well-formedness. -/
theorem rehashStep_spec {hash : Nat → Nat} {d : rDict} (hwf : WF hash d) :
    ∃ d', _dictRehashStep hash d = some d' ∧ WF hash d' ∧
      entriesL d' ~ entriesL d ∧ d'.iterators = d.iterators ∧
      dictSize d' = dictSize d := by
  by_cases hit : d.iterators = 0
  · obtain ⟨d', r, h1, h2, h3, h4, h5⟩ := dictRehash_spec hwf 1
    exact ⟨d', by simp [_dictRehashStep, hit, h1], h2, h3, h4, h5⟩
  · exact ⟨d, by simp [_dictRehashStep, hit], hwf, .refl _, rfl, rfl⟩

/-- Outstanding safe iterators suspend the opportunistic rehash step
entirely. -/
theorem rehashStep_noop {hash : Nat → Nat} {d : rDict}
    (hit : d.iterators ≠ 0) : _dictRehashStep hash d = some d := by
  simp [_dictRehashStep, hit]

/-- The conditional opportunistic step at the head of add/find/delete. -/
theorem condStep_spec {hash : Nat → Nat} {d : rDict} (hwf : WF hash d) :
    ∃ d', (if dictIsRehashing d then _dictRehashStep hash d else some d)
        = some d' ∧ WF hash d' ∧ entriesL d' ~ entriesL d ∧
      d'.iterators = d.iterators ∧ dictSize d' = dictSize d := by
  by_cases hre : dictIsRehashing d = true
  · obtain ⟨d', h1, h2, h3, h4, h5⟩ := rehashStep_spec hwf
    exact ⟨d', by simp [hre, h1], h2, h3, h4, h5⟩
  · have hre' : dictIsRehashing d = false := by simpa using hre
    exact ⟨d, by simp [hre'], hwf, .refl _, rfl, rfl⟩

/-! ## Key membership helpers -/

theorem mem_keysL_iff {d : rDict} {k : Nat} :
    k ∈ keysL d ↔ ∃ v, (k, v) ∈ entriesL d := by
  constructor
  · intro h
    obtain ⟨e, he, hk⟩ := List.mem_map.1 h
    exact ⟨e.2, by rwa [show (k, e.2) = e from by rw [← hk]]⟩
  · rintro ⟨v, hv⟩
    exact List.mem_map.2 ⟨(k, v), hv, rfl⟩

theorem nodup_key_unique {l : List (Nat × Nat)} {k v1 v2 : Nat}
    (h : (l.map Prod.fst).Nodup) (h1 : (k, v1) ∈ l) (h2 : (k, v2) ∈ l) :
    v1 = v2 := by
  induction l with
  | nil => cases h1
  | cons a tl ih =>
    rw [List.map_cons, List.nodup_cons] at h
    rcases List.mem_cons.1 h1 with rfl | h1' <;>
      rcases List.mem_cons.1 h2 with h2' | h2'
    · cases h2'
      rfl
    · exact absurd (List.mem_map.2 ⟨(k, v2), h2', rfl⟩) h.1
    · rw [← h2'] at h
      exact absurd (List.mem_map.2 ⟨(k, v1), h1', rfl⟩) h.1
    · exact ih h.2 h1' h2'

/-- Every entry of a well-formed dict sits either in its `ht[0]` probe
bucket or — only while rehashing — in its `ht[1]` probe bucket. -/
theorem WF.entry_located {hash : Nat → Nat} {d : rDict} {k v : Nat}
    (hwf : WF hash d) (hm : (k, v) ∈ entriesL d) :
    (k, v) ∈ d.ht0.table.getD (hash k &&& d.ht0.sizemask) [] ∨
      (dictIsRehashing d = true ∧
        (k, v) ∈ d.ht1.table.getD (hash k &&& d.ht1.sizemask) []) := by
  rcases List.mem_append.1 hm with h0 | h1
  · exact Or.inl (hwf.wfht0.mem_bucket h0)
  · cases hre : dictIsRehashing d with
    | true => exact Or.inr ⟨rfl, hwf.wfht1.mem_bucket h1⟩
    | false =>
      rw [hwf.not_rehash_ht1 hre] at h1
      cases h1

/-- If both probe chains miss the key, it is not in the dict. -/
theorem WF.not_mem_keys {hash : Nat → Nat} {d : rDict} {k : Nat}
    (hwf : WF hash d)
    (h0 : chainFind (d.ht0.table.getD (hash k &&& d.ht0.sizemask) []) k = none)
    (h1 : dictIsRehashing d = true →
      chainFind (d.ht1.table.getD (hash k &&& d.ht1.sizemask) []) k = none) :
    k ∉ keysL d := by
  intro hk
  obtain ⟨v, hv⟩ := mem_keysL_iff.1 hk
  rcases hwf.entry_located hv with hin | ⟨hre, hin⟩
  · rw [chainFind_none_iff] at h0
    exact h0 (k, v) hin rfl
  · exact chainFind_none_iff.1 (h1 hre) (k, v) hin rfl

theorem getD_ne_nil_lt {t : List Chain} {i : Nat} (h : t.getD i [] ≠ []) :
    i < t.length := by
  by_contra hc
  exact h (getD_of_le t i (Nat.le_of_not_lt hc))

/-! ## `_dictNextPower` lemmas -/

theorem nextPowerLoop_ge_start :
    ∀ fuel i size, i ≤ nextPowerLoop fuel i size := by
  intro fuel
  induction fuel with
  | zero => intro i size; exact Nat.le_refl i
  | succ fuel ih =>
    intro i size
    simp only [nextPowerLoop]
    by_cases h : i ≥ size
    · simp [h]
    · simp only [if_neg h]
      exact Nat.le_trans (Nat.le_mul_of_pos_right i (by omega)) (ih (i * 2) size)

theorem nextPower_ge_four (s : Nat) : 4 ≤ _dictNextPower s := by
  unfold _dictNextPower
  split
  · decide
  · exact nextPowerLoop_ge_start s DICT_HT_INITIAL_SIZE s

theorem nextPowerLoop_ge_size :
    ∀ fuel i size, 0 < i → size ≤ i + fuel →
      size ≤ nextPowerLoop fuel i size := by
  intro fuel
  induction fuel with
  | zero =>
    intro i size _ h
    simpa [nextPowerLoop] using h
  | succ fuel ih =>
    intro i size hi h
    simp only [nextPowerLoop]
    by_cases hge : i ≥ size
    · simp [hge]
    · simp only [if_neg hge]
      exact ih (i * 2) size (by omega) (by omega)

theorem nextPower_ge_size {s : Nat} (h : s < LONG_MAX) :
    s ≤ _dictNextPower s := by
  unfold _dictNextPower
  rw [if_neg (by omega)]
  exact nextPowerLoop_ge_size s DICT_HT_INITIAL_SIZE s (by decide) (by omega)

theorem nextPower_pos (s : Nat) : 0 < _dictNextPower s :=
  Nat.lt_of_lt_of_le (by decide) (nextPower_ge_four s)

theorem nextPowerLoop_pow2 :
    ∀ fuel a size, ∃ k, nextPowerLoop fuel (2 ^ a) size = 2 ^ k := by
  intro fuel
  induction fuel with
  | zero => intro a size; exact ⟨a, rfl⟩
  | succ fuel ih =>
    intro a size
    simp only [nextPowerLoop]
    by_cases h : 2 ^ a ≥ size
    · exact ⟨a, by simp [h]⟩
    · obtain ⟨k, hk⟩ := ih (a + 1) size
      refine ⟨k, ?_⟩
      rw [if_neg h, show 2 ^ a * 2 = 2 ^ (a + 1) from (Nat.pow_succ 2 a).symm]
      exact hk

theorem nextPower_pow2 {s : Nat} (h : s < LONG_MAX) :
    ∃ k, _dictNextPower s = 2 ^ k := by
  unfold _dictNextPower
  rw [if_neg (by omega)]
  exact nextPowerLoop_pow2 s 2 s

theorem nextPowerLoop_le_pow :
    ∀ fuel a b size, 2 ^ a ≤ 2 ^ b → size ≤ 2 ^ b →
      nextPowerLoop fuel (2 ^ a) size ≤ 2 ^ b := by
  intro fuel
  induction fuel with
  | zero => intro a b size hab _; exact hab
  | succ fuel ih =>
    intro a b size hab hs
    simp only [nextPowerLoop]
    by_cases h : 2 ^ a ≥ size
    · simpa [h]
    · rw [if_neg h, show 2 ^ a * 2 = 2 ^ (a + 1) from (Nat.pow_succ 2 a).symm]
      refine ih (a + 1) b size ?_ hs
      have hlt : 2 ^ a < 2 ^ b := by omega
      have : a < b := (Nat.pow_lt_pow_iff_right (by omega)).1 hlt
      exact Nat.pow_le_pow_right (by omega) (by omega)

/-- Minimality of the capacity choice: `_dictNextPower s` is the least power
of two that is at least `max s 4`. -/
theorem nextPower_min {s j : Nat} (hj : 2 ≤ j) (hs : s ≤ 2 ^ j) :
    _dictNextPower s ≤ 2 ^ j := by
  unfold _dictNextPower
  split
  · next h => omega
  · next h =>
    exact nextPowerLoop_le_pow s 2 j s (Nat.pow_le_pow_right (by omega) hj) hs

theorem flatten_replicate_nil (n : Nat) :
    (List.replicate n ([] : Chain)).flatten = [] := by
  induction n with
  | zero => rfl
  | succ n ih => simp [List.replicate, ih]

theorem newHt_flatten (n : Nat) : (newHt n).table.flatten = [] :=
  flatten_replicate_nil n

/-! ## `_dictExpandIfNeeded` specification -/

/-- Under well-formedness `_dictExpandIfNeeded` always succeeds, preserves
the entries and the iterator counter, and leaves a generation 0 that can
receive an insertion (`size > 0` whenever not rehashing afterwards). -/
theorem expandIfNeeded_spec {hash : Nat → Nat} {cr : Bool} {d : rDict}
    (hwf : WF hash d) :
    ∃ d', _dictExpandIfNeeded cr d = (d', DICT_OK) ∧ WF hash d' ∧
      entriesL d' = entriesL d ∧ d'.iterators = d.iterators ∧
      (dictIsRehashing d' = false → 0 < d'.ht0.size) := by
  by_cases hre : dictIsRehashing d = true
  · refine ⟨d, by simp [_dictExpandIfNeeded, hre], hwf, rfl, rfl, ?_⟩
    intro h
    rw [hre] at h
    cases h
  · have hre' : dictIsRehashing d = false := by simpa using hre
    have hrid : d.rehashidx = -1 := not_rehashing_iff.1 hre'
    have hht1 : d.ht1 = emptyHt := hwf.not_rehash_ht1 hre'
    by_cases hsz : d.ht0.size = 0
    · have htab : d.ht0.table = [] :=
        List.eq_nil_of_length_eq_zero (by rw [hwf.wfht0.len]; exact hsz)
      have hused : d.ht0.used = 0 := by
        have := hwf.wfht0.used_eq
        rw [htab] at this
        simpa using this
      set N := _dictNextPower DICT_HT_INITIAL_SIZE with hN
      have hNpos : 0 < N := nextPower_pos DICT_HT_INITIAL_SIZE
      have hexp : _dictExpandIfNeeded cr d = ({ d with ht0 := newHt N }, DICT_OK) := by
        show (if dictIsRehashing d then (d, DICT_OK)
              else if d.ht0.size = 0 then dictExpand d DICT_HT_INITIAL_SIZE
              else if d.ht0.used ≥ d.ht0.size ∧
                  (cr = true ∨ d.ht0.used / d.ht0.size > 5) then
                dictExpand d (d.ht0.used * 2)
              else (d, DICT_OK)) = _
        rw [if_neg (by simp [hre']), if_pos hsz]
        show (if dictIsRehashing d ∨ d.ht0.used > DICT_HT_INITIAL_SIZE
              then (d, DICT_ERR)
              else if d.ht0.table = [] then ({ d with ht0 := newHt N }, DICT_OK)
              else ({ d with ht1 := newHt N, rehashidx := 0 }, DICT_OK)) = _
        rw [if_neg ?_, if_pos htab]
        rintro (h | h)
        · rw [hre'] at h
          cases h
        · rw [hused] at h
          exact absurd h (by decide)
      have hent : entriesL { d with ht0 := newHt N } = entriesL d := by
        simp [entriesL, newHt_flatten, htab]
      refine ⟨_, hexp, ?_, hent, rfl, ?_⟩
      · refine ⟨WFht_newHt hash N, hwf.wfht1, ?_, ?_, fun _ => hht1, ?_, ?_⟩
        · constructor
          · simp [hrid]
          · show d.rehashidx ≤ ((newHt N).size : Int)
            simp [newHt, hrid]
            omega
        · intro hcon
          rw [show dictIsRehashing { d with ht0 := newHt N } = dictIsRehashing d
              from rfl, hre'] at hcon
          cases hcon
        · intro i hi hlt
          simp only [hrid] at hlt
          omega
        · rw [show keysL { d with ht0 := newHt N }
              = (entriesL { d with ht0 := newHt N }).map Prod.fst from rfl, hent]
          exact hwf.nodupKeys
      · intro _
        simpa [newHt] using hNpos
    · by_cases hload : d.ht0.used ≥ d.ht0.size ∧
          (cr = true ∨ d.ht0.used / d.ht0.size > 5)
      · have htab : d.ht0.table ≠ [] := by
          intro h
          apply hsz
          rw [← hwf.wfht0.len, h]
          rfl
        set N := _dictNextPower (d.ht0.used * 2) with hN
        have hNpos : 0 < N := nextPower_pos _
        have hexp : _dictExpandIfNeeded cr d
            = ({ d with ht1 := newHt N, rehashidx := 0 }, DICT_OK) := by
          show (if dictIsRehashing d then (d, DICT_OK)
                else if d.ht0.size = 0 then dictExpand d DICT_HT_INITIAL_SIZE
                else if d.ht0.used ≥ d.ht0.size ∧
                    (cr = true ∨ d.ht0.used / d.ht0.size > 5) then
                  dictExpand d (d.ht0.used * 2)
                else (d, DICT_OK)) = _
          rw [if_neg (by simp [hre']), if_neg hsz, if_pos hload]
          show (if dictIsRehashing d ∨ d.ht0.used > d.ht0.used * 2
                then (d, DICT_ERR)
                else if d.ht0.table = [] then ({ d with ht0 := newHt N }, DICT_OK)
                else ({ d with ht1 := newHt N, rehashidx := 0 }, DICT_OK)) = _
          rw [if_neg ?_, if_neg htab]
          rintro (h | h)
          · rw [hre'] at h
            cases h
          · omega
        have hent : entriesL { d with ht1 := newHt N, rehashidx := 0 }
            = entriesL d := by
          simp [entriesL, newHt_flatten, hht1, emptyHt]
        have hreh' : dictIsRehashing { d with ht1 := newHt N, rehashidx := 0 }
            = true := by simp [dictIsRehashing]
        refine ⟨_, hexp, ?_, hent, rfl, ?_⟩
        · refine ⟨hwf.wfht0, WFht_newHt hash N, ?_, ?_, ?_, ?_, ?_⟩
          · constructor
            · simp
            · show (0 : Int) ≤ (d.ht0.size : Int)
              omega
          · intro _
            constructor
            · show 0 < d.ht0.size
              omega
            · simpa [newHt] using hNpos
          · intro hcon
            rw [hreh'] at hcon
            cases hcon
          · intro i hi hlt
            simp only at hlt
            omega
          · rw [show keysL { d with ht1 := newHt N, rehashidx := 0 }
                = (entriesL { d with ht1 := newHt N, rehashidx := 0 }).map Prod.fst
                from rfl, hent]
            exact hwf.nodupKeys
        · intro hcon
          rw [hreh'] at hcon
          cases hcon
      · refine ⟨d, ?_, hwf, rfl, rfl, fun _ => by omega⟩
        show (if dictIsRehashing d then (d, DICT_OK)
              else if d.ht0.size = 0 then dictExpand d DICT_HT_INITIAL_SIZE
              else if d.ht0.used ≥ d.ht0.size ∧
                  (cr = true ∨ d.ht0.used / d.ht0.size > 5) then
                dictExpand d (d.ht0.used * 2)
              else (d, DICT_OK)) = (d, DICT_OK)
        rw [if_neg (by simp [hre']), if_neg hsz, if_neg hload]

/-! ## `_dictKeyIndex` specification -/

/-- For an absent key, `_dictKeyIndex` returns the probe bucket of the
generation a subsequent insert targets (`ht[1]` when rehashing, else
`ht[0]`). -/
theorem keyIndex_not_mem {hash : Nat → Nat} {cr : Bool} {d : rDict} {k : Nat}
    (hwf : WF hash d) (hk : k ∉ keysL d) :
    ∃ d' idx, _dictKeyIndex hash cr d k = (d', some idx) ∧ WF hash d' ∧
      entriesL d' = entriesL d ∧ d'.iterators = d.iterators ∧
      (dictIsRehashing d' = true →
        idx = hash k &&& d'.ht1.sizemask ∧ 0 < d'.ht1.size) ∧
      (dictIsRehashing d' = false →
        idx = hash k &&& d'.ht0.sizemask ∧ 0 < d'.ht0.size) := by
  obtain ⟨d₁, hexp, hwf₁, hent₁, hit₁, hpost⟩ := @expandIfNeeded_spec _ cr _ hwf
  have hk₁ : k ∉ keysL d₁ := by
    rw [keysL, hent₁]
    exact hk
  have hcf0 : chainFind (d₁.ht0.table.getD (hash k &&& d₁.ht0.sizemask) []) k
      = none := by
    cases hcf : chainFind (d₁.ht0.table.getD (hash k &&& d₁.ht0.sizemask) []) k with
    | none => rfl
    | some e =>
      obtain ⟨hek, hmem⟩ := chainFind_some hcf
      exact absurd (List.mem_map.2 ⟨e, List.mem_append.2
        (Or.inl (mem_getD_mem_flatten hmem)), hek⟩) hk₁
  cases hre₁ : dictIsRehashing d₁ with
  | false =>
    refine ⟨d₁, hash k &&& d₁.ht0.sizemask, ?_, hwf₁, hent₁, hit₁,
      fun h => absurd (hre₁ ▸ h) (by simp), fun _ => ⟨rfl, hpost hre₁⟩⟩
    simp only [_dictKeyIndex, hexp]
    rw [if_neg (by simp [DICT_OK, DICT_ERR]), if_neg (by rw [hcf0]; simp),
      if_pos (by simp [hre₁])]
  | true =>
    have hcf1 : chainFind (d₁.ht1.table.getD (hash k &&& d₁.ht1.sizemask) []) k
        = none := by
      cases hcf : chainFind (d₁.ht1.table.getD (hash k &&& d₁.ht1.sizemask) []) k with
      | none => rfl
      | some e =>
        obtain ⟨hek, hmem⟩ := chainFind_some hcf
        exact absurd (List.mem_map.2 ⟨e, List.mem_append.2
          (Or.inr (mem_getD_mem_flatten hmem)), hek⟩) hk₁
    refine ⟨d₁, hash k &&& d₁.ht1.sizemask, ?_, hwf₁, hent₁, hit₁,
      fun _ => ⟨rfl, (hwf₁.rehash_pos hre₁).2⟩,
      fun h => absurd (hre₁ ▸ h) (by simp)⟩
    simp only [_dictKeyIndex, hexp]
    rw [if_neg (by simp [DICT_OK, DICT_ERR]), if_neg (by rw [hcf0]; simp),
      if_neg (by simp [hre₁]), if_neg (by rw [hcf1]; simp)]

/-- For a present key, `_dictKeyIndex` reports -1 (`none`). -/
theorem keyIndex_mem {hash : Nat → Nat} {cr : Bool} {d : rDict} {k : Nat}
    (hwf : WF hash d) (hk : k ∈ keysL d) :
    ∃ d', _dictKeyIndex hash cr d k = (d', none) ∧ WF hash d' ∧
      entriesL d' = entriesL d ∧ d'.iterators = d.iterators := by
  obtain ⟨d₁, hexp, hwf₁, hent₁, hit₁, _⟩ := @expandIfNeeded_spec _ cr _ hwf
  have hk₁ : k ∈ keysL d₁ := by
    rw [keysL, hent₁]
    exact hk
  obtain ⟨v, hv⟩ := mem_keysL_iff.1 hk₁
  refine ⟨d₁, ?_, hwf₁, hent₁, hit₁⟩
  simp only [_dictKeyIndex, hexp]
  rw [if_neg (by simp [DICT_OK, DICT_ERR])]
  rcases hwf₁.entry_located hv with hin | ⟨hre₁, hin⟩
  · rw [if_pos (chainFind_isSome_of_mem hin)]
  · cases hcf : chainFind (d₁.ht0.table.getD (hash k &&& d₁.ht0.sizemask) []) k with
    | some e => rw [if_pos (by simp)]
    | none =>
      rw [if_neg (by simp), if_neg (by simp [hre₁]),
        if_pos (chainFind_isSome_of_mem hin)]

/-! ## `dictAdd` specification -/

/-- Adding an absent key to a well-formed dict succeeds, preserves
well-formedness, and the entries gain exactly the new pair. -/
theorem dictAdd_spec {hash : Nat → Nat} {cr : Bool} {d : rDict} {k v : Nat}
    (hwf : WF hash d) (hk : k ∉ keysL d) :
    ∃ d', dictAdd hash cr d k v = some (d', DICT_OK) ∧ WF hash d' ∧
      entriesL d' ~ (k, v) :: entriesL d := by
  obtain ⟨d₁, hstep, hwf₁, hperm₁, hit₁, hsz₁⟩ := condStep_spec hwf
  have hk₁ : k ∉ keysL d₁ := fun h => hk ((hperm₁.map Prod.fst).mem_iff.1 h)
  obtain ⟨d₂, idx, hki, hwf₂, hent₂, hit₂, htru, hfal⟩ :=
    @keyIndex_not_mem _ cr _ _ hwf₁ hk₁
  have hk₂ : k ∉ keysL d₂ := by
    rw [keysL, hent₂]
    exact hk₁
  have hperm₂ : entriesL d₂ ~ entriesL d := hent₂ ▸ hperm₁
  cases hre₂ : dictIsRehashing d₂ with
  | true =>
    obtain ⟨hidx, hpos⟩ := htru hre₂
    obtain ⟨hwfn, hpermn⟩ := @insertHt_spec hash _ k v hwf₂.wfht1 hpos
    rw [← hidx] at hwfn hpermn
    refine ⟨{ d₂ with ht1 := insertHt d₂.ht1 idx k v }, ?_, ?_, ?_⟩
    · simp only [dictAdd, hstep, hki]
      rw [if_pos (by simp [hre₂])]
    · refine ⟨hwf₂.wfht0, hwfn, ?_, ?_, ?_, ?_, ?_⟩
      · exact hwf₂.ridx_bounds
      · intro _
        exact ⟨(hwf₂.rehash_pos hre₂).1, by
          show 0 < d₂.ht1.size
          exact hpos⟩
      · intro hcon
        rw [show dictIsRehashing { d₂ with ht1 := insertHt d₂.ht1 idx k v }
            = dictIsRehashing d₂ from rfl, hre₂] at hcon
        cases hcon
      · intro i hi hlt
        exact hwf₂.prefix_empty i hi hlt
      · have hperm' : entriesL { d₂ with ht1 := insertHt d₂.ht1 idx k v }
            ~ (k, v) :: entriesL d₂ := by
          calc d₂.ht0.table.flatten ++ (insertHt d₂.ht1 idx k v).table.flatten
              ~ d₂.ht0.table.flatten ++ ((k, v) :: d₂.ht1.table.flatten) :=
                hpermn.append_left _
            _ ~ (k, v) :: (d₂.ht0.table.flatten ++ d₂.ht1.table.flatten) :=
                List.perm_middle
        have hkeys : keysL { d₂ with ht1 := insertHt d₂.ht1 idx k v }
            ~ k :: keysL d₂ := hperm'.map Prod.fst
        exact hkeys.nodup_iff.2 (List.nodup_cons.2 ⟨hk₂, hwf₂.nodupKeys⟩)
    · calc entriesL { d₂ with ht1 := insertHt d₂.ht1 idx k v }
          = d₂.ht0.table.flatten ++ (insertHt d₂.ht1 idx k v).table.flatten := rfl
        _ ~ d₂.ht0.table.flatten ++ ((k, v) :: d₂.ht1.table.flatten) :=
            hpermn.append_left _
        _ ~ (k, v) :: entriesL d₂ := List.perm_middle
        _ ~ (k, v) :: entriesL d := hperm₂.cons (k, v)
  | false =>
    obtain ⟨hidx, hpos⟩ := hfal hre₂
    obtain ⟨hwfn, hpermn⟩ := @insertHt_spec hash _ k v hwf₂.wfht0 hpos
    rw [← hidx] at hwfn hpermn
    refine ⟨{ d₂ with ht0 := insertHt d₂.ht0 idx k v }, ?_, ?_, ?_⟩
    · simp only [dictAdd, hstep, hki]
      rw [if_neg (by simp [hre₂])]
    · refine ⟨hwfn, hwf₂.wfht1, ?_, ?_, ?_, ?_, ?_⟩
      · have hb := hwf₂.ridx_bounds
        constructor
        · exact hb.1
        · show d₂.rehashidx ≤ ((insertHt d₂.ht0 idx k v).size : Int)
          exact hb.2
      · intro hcon
        rw [show dictIsRehashing { d₂ with ht0 := insertHt d₂.ht0 idx k v }
            = dictIsRehashing d₂ from rfl, hre₂] at hcon
        cases hcon
      · intro _
        exact hwf₂.not_rehash_ht1 hre₂
      · intro i hi hlt
        have hrid : d₂.rehashidx = -1 := not_rehashing_iff.1 hre₂
        rw [hrid] at hlt
        omega
      · have hperm' : entriesL { d₂ with ht0 := insertHt d₂.ht0 idx k v }
            ~ (k, v) :: entriesL d₂ := by
          calc (insertHt d₂.ht0 idx k v).table.flatten ++ d₂.ht1.table.flatten
              ~ ((k, v) :: d₂.ht0.table.flatten) ++ d₂.ht1.table.flatten :=
                hpermn.append_right _
            _ = (k, v) :: (d₂.ht0.table.flatten ++ d₂.ht1.table.flatten) := rfl
        have hkeys : keysL { d₂ with ht0 := insertHt d₂.ht0 idx k v }
            ~ k :: keysL d₂ := hperm'.map Prod.fst
        exact hkeys.nodup_iff.2 (List.nodup_cons.2 ⟨hk₂, hwf₂.nodupKeys⟩)
    · calc entriesL { d₂ with ht0 := insertHt d₂.ht0 idx k v }
          ~ ((k, v) :: d₂.ht0.table.flatten) ++ d₂.ht1.table.flatten :=
            hpermn.append_right _
        _ = (k, v) :: entriesL d₂ := rfl
        _ ~ (k, v) :: entriesL d := hperm₂.cons (k, v)

/-! ## `dictFind` specification -/

/-- `dictFind` on a well-formed dict: total, preserves the state up to one
opportunistic rehash step (same entries, same iterator counter), and the
result correctly reflects membership: it returns exactly the entry of the
searched key when present, `none` when absent. -/
theorem dictFind_spec {hash : Nat → Nat} {d : rDict} (k : Nat)
    (hwf : WF hash d) :
    ∃ d' r, dictFind hash d k = some (d', r) ∧ WF hash d' ∧
      entriesL d' ~ entriesL d ∧ d'.iterators = d.iterators ∧
      (∀ v, r = some (k, v) ↔ (k, v) ∈ entriesL d) ∧
      (r = none ↔ k ∉ keysL d) ∧
      (∀ e, r = some e → e.1 = k) := by
  by_cases hsz : d.ht0.size = 0
  · have htab : d.ht0.table = [] :=
      List.eq_nil_of_length_eq_zero (by rw [hwf.wfht0.len]; exact hsz)
    have hre' : dictIsRehashing d = false := by
      cases hre : dictIsRehashing d with
      | false => rfl
      | true => exact absurd hsz (by have := (hwf.rehash_pos hre).1; omega)
    have hent : entriesL d = [] := by
      rw [entriesL, htab, hwf.not_rehash_ht1 hre']
      rfl
    refine ⟨d, none, by simp [dictFind, hsz], hwf, .refl _, rfl, ?_, ?_, ?_⟩
    · intro v
      simp [hent]
    · simp [keysL, hent]
    · intro e he
      cases he
  · obtain ⟨d₁, hstep, hwf₁, hperm₁, hit₁, _⟩ := condStep_spec hwf
    have hkeys : keysL d₁ ~ keysL d := hperm₁.map Prod.fst
    cases hcf0 : chainFind (d₁.ht0.table.getD (hash k &&& d₁.ht0.sizemask) []) k with
    | some e =>
      obtain ⟨hek, hmem0⟩ := chainFind_some hcf0
      have he_in : e ∈ entriesL d := hperm₁.mem_iff.1
        (List.mem_append.2 (Or.inl (mem_getD_mem_flatten hmem0)))
      have hpair : (k, e.2) = e := by
        obtain ⟨ek, ev⟩ := e
        simp at hek
        rw [hek]
      refine ⟨d₁, some e, ?_, hwf₁, hperm₁, hit₁, ?_, ?_, ?_⟩
      · simp only [dictFind, hstep, hcf0, if_neg hsz]
      · intro v
        constructor
        · intro h
          injection h with h
          subst h
          exact he_in
        · intro hv
          have : e.2 = v :=
            nodup_key_unique hwf.nodupKeys (by rwa [hpair]) hv
          rw [← hpair, this]
      · constructor
        · intro h
          cases h
        · intro hnk
          exact absurd (mem_keysL_iff.2 ⟨e.2, by rwa [hpair]⟩) hnk
      · intro e' he'
        injection he' with he'
        rw [← he']
        exact hek
    | none =>
      cases hre₁ : dictIsRehashing d₁ with
      | false =>
        have hnk₁ : k ∉ keysL d₁ :=
          hwf₁.not_mem_keys hcf0 (fun h => absurd (hre₁ ▸ h) (by simp))
        have hnk : k ∉ keysL d := fun h => hnk₁ (hkeys.mem_iff.2 h)
        refine ⟨d₁, none, ?_, hwf₁, hperm₁, hit₁, ?_, ?_, ?_⟩
        · simp only [dictFind, hstep, hcf0, if_neg hsz]
          rw [if_pos (by simp [hre₁])]
        · intro v
          constructor
          · intro h
            cases h
          · intro hv
            exact absurd (mem_keysL_iff.2 ⟨v, hv⟩) hnk
        · exact ⟨fun _ => hnk, fun _ => rfl⟩
        · intro e' he'
          cases he'
      | true =>
        cases hcf1 : chainFind (d₁.ht1.table.getD (hash k &&& d₁.ht1.sizemask) []) k with
        | some e =>
          obtain ⟨hek, hmem1⟩ := chainFind_some hcf1
          have he_in : e ∈ entriesL d := hperm₁.mem_iff.1
            (List.mem_append.2 (Or.inr (mem_getD_mem_flatten hmem1)))
          have hpair : (k, e.2) = e := by
            obtain ⟨ek, ev⟩ := e
            simp at hek
            rw [hek]
          refine ⟨d₁, some e, ?_, hwf₁, hperm₁, hit₁, ?_, ?_, ?_⟩
          · simp only [dictFind, hstep, hcf0, if_neg hsz]
            rw [if_neg (by simp [hre₁]), hcf1]
          · intro v
            constructor
            · intro h
              injection h with h
              subst h
              exact he_in
            · intro hv
              have : e.2 = v :=
                nodup_key_unique hwf.nodupKeys (by rwa [hpair]) hv
              rw [← hpair, this]
          · constructor
            · intro h
              cases h
            · intro hnk
              exact absurd (mem_keysL_iff.2 ⟨e.2, by rwa [hpair]⟩) hnk
          · intro e' he'
            injection he' with he'
            rw [← he']
            exact hek
        | none =>
          have hnk₁ : k ∉ keysL d₁ := hwf₁.not_mem_keys hcf0 (fun _ => hcf1)
          have hnk : k ∉ keysL d := fun h => hnk₁ (hkeys.mem_iff.2 h)
          refine ⟨d₁, none, ?_, hwf₁, hperm₁, hit₁, ?_, ?_, ?_⟩
          · simp only [dictFind, hstep, hcf0, if_neg hsz]
            rw [if_neg (by simp [hre₁]), hcf1]
          · intro v
            constructor
            · intro h
              cases h
            · intro hv
              exact absurd (mem_keysL_iff.2 ⟨v, hv⟩) hnk
          · exact ⟨fun _ => hnk, fun _ => rfl⟩
          · intro e' he'
            cases he'

/-! ## `dictGenericDelete` specification -/

/-- `dictGenericDelete` on a well-formed dict: total, preserves
well-formedness and the iterator counter; DICT_OK reports exactly the
presence of the key, in which case the key's single entry is removed;
DICT_ERR leaves the entries unchanged (up to the opportunistic rehash
step). -/
theorem dictDelete_spec {hash : Nat → Nat} {d : rDict} (k : Nat)
    (hwf : WF hash d) :
    ∃ d' st, dictGenericDelete hash d k = some (d', st) ∧ WF hash d' ∧
      d'.iterators = d.iterators ∧
      ((st = DICT_OK ∧ k ∈ keysL d ∧ k ∉ keysL d' ∧
          ∃ v, entriesL d ~ (k, v) :: entriesL d') ∨
       (st = DICT_ERR ∧ k ∉ keysL d ∧ entriesL d' ~ entriesL d)) := by
  by_cases hsz : d.ht0.size = 0
  · have htab : d.ht0.table = [] :=
      List.eq_nil_of_length_eq_zero (by rw [hwf.wfht0.len]; exact hsz)
    have hre' : dictIsRehashing d = false := by
      cases hre : dictIsRehashing d with
      | false => rfl
      | true => exact absurd hsz (by have := (hwf.rehash_pos hre).1; omega)
    have hent : entriesL d = [] := by
      rw [entriesL, htab, hwf.not_rehash_ht1 hre']
      rfl
    refine ⟨d, DICT_ERR, by simp [dictGenericDelete, hsz], hwf, rfl,
      Or.inr ⟨rfl, ?_, .refl _⟩⟩
    simp [keysL, hent]
  · obtain ⟨d₁, hstep, hwf₁, hperm₁, hit₁, _⟩ := condStep_spec hwf
    have hkeys : keysL d₁ ~ keysL d := hperm₁.map Prod.fst
    cases hrm0 : chainRemove (d₁.ht0.table.getD (hash k &&& d₁.ht0.sizemask) []) k with
    | some c' =>
      obtain ⟨v, hv⟩ := chainRemove_some_perm hrm0
      have hne : d₁.ht0.table.getD (hash k &&& d₁.ht0.sizemask) [] ≠ [] := by
        intro h
        rw [h] at hrm0
        cases hrm0
      have hi0 : hash k &&& d₁.ht0.sizemask < d₁.ht0.table.length :=
        getD_ne_nil_lt hne
      have hlen : (d₁.ht0.table.getD (hash k &&& d₁.ht0.sizemask) []).length
          = c'.length + 1 := by simpa using hv.length_eq
      have husedge : 1 ≤ d₁.ht0.used := by
        have h1 := getD_length_le_sum d₁.ht0.table (hash k &&& d₁.ht0.sizemask) hi0
        have h2 := hwf₁.wfht0.used_eq
        omega
      have hwf0' : WFht hash
          ⟨d₁.ht0.table.set (hash k &&& d₁.ht0.sizemask) c', d₁.ht0.size,
            d₁.ht0.sizemask, d₁.ht0.used - 1⟩ := by
        refine WFht_setBucket hwf₁.wfht0 hi0 ?_ (by omega)
        intro e he
        exact hwf₁.wfht0.placed _ hi0 e (hv.mem_iff.2 (List.mem_cons_of_mem _ he))
      set d' : rDict := { d₁ with ht0 :=
        ⟨d₁.ht0.table.set (hash k &&& d₁.ht0.sizemask) c', d₁.ht0.size,
          d₁.ht0.sizemask, d₁.ht0.used - 1⟩ } with hd'
      have hpermdel : entriesL d₁ ~ (k, v) :: entriesL d' := by
        have hd := flatten_decomp d₁.ht0.table (hash k &&& d₁.ht0.sizemask) hi0
        have hs := flatten_set_perm d₁.ht0.table (hash k &&& d₁.ht0.sizemask) c' hi0
        calc entriesL d₁
            = d₁.ht0.table.flatten ++ d₁.ht1.table.flatten := rfl
          _ ~ (d₁.ht0.table.getD (hash k &&& d₁.ht0.sizemask) []
                ++ (d₁.ht0.table.set (hash k &&& d₁.ht0.sizemask) []).flatten)
                ++ d₁.ht1.table.flatten := hd.append_right _
          _ ~ (((k, v) :: c')
                ++ (d₁.ht0.table.set (hash k &&& d₁.ht0.sizemask) []).flatten)
                ++ d₁.ht1.table.flatten := (hv.append_right _).append_right _
          _ = (k, v) :: ((c'
                ++ (d₁.ht0.table.set (hash k &&& d₁.ht0.sizemask) []).flatten)
                ++ d₁.ht1.table.flatten) := rfl
          _ ~ (k, v) :: entriesL d' := (hs.symm.append_right _).cons (k, v)
      have hkin : k ∈ keysL d := by
        refine hkeys.mem_iff.1 (mem_keysL_iff.2 ⟨v, ?_⟩)
        exact List.mem_append.2 (Or.inl
          (mem_getD_mem_flatten (hv.mem_iff.2 (List.mem_cons_self _ _))))
      have hconsnd : (k :: keysL d').Nodup :=
        (hpermdel.map Prod.fst).nodup_iff.1 hwf₁.nodupKeys
      have hknotin : k ∉ keysL d' := (List.nodup_cons.1 hconsnd).1
      have hnodup' : (keysL d').Nodup := (List.nodup_cons.1 hconsnd).2
      refine ⟨d', DICT_OK, ?_, ?_, hit₁, Or.inl ⟨rfl, hkin, hknotin,
        ⟨v, hperm₁.symm.trans hpermdel⟩⟩⟩
      · simp only [dictGenericDelete, hstep, hrm0, if_neg hsz]
      · refine ⟨hwf0', hwf₁.wfht1, ?_, ?_, ?_, ?_, hnodup'⟩
        · exact hwf₁.ridx_bounds
        · intro hre
          exact hwf₁.rehash_pos hre
        · intro hre
          exact hwf₁.not_rehash_ht1 hre
        · intro i hi hlt
          simp only [hd', List.length_set] at hi ⊢
          by_cases hii : i = hash k &&& d₁.ht0.sizemask
          · subst hii
            exact absurd (hwf₁.prefix_empty _ hi hlt) hne
          · rw [getD_set_ne d₁.ht0.table _ i c' (fun hh => hii hh.symm)]
            exact hwf₁.prefix_empty i hi hlt
    | none =>
      have hcf0 : chainFind (d₁.ht0.table.getD (hash k &&& d₁.ht0.sizemask) []) k
          = none := chainFind_none_iff.2 (chainRemove_none_iff.1 hrm0)
      cases hre₁ : dictIsRehashing d₁ with
      | false =>
        have hnk₁ : k ∉ keysL d₁ :=
          hwf₁.not_mem_keys hcf0 (fun h => absurd (hre₁ ▸ h) (by simp))
        refine ⟨d₁, DICT_ERR, ?_, hwf₁, hit₁, Or.inr ⟨rfl,
          fun h => hnk₁ (hkeys.mem_iff.2 h), hperm₁⟩⟩
        simp only [dictGenericDelete, hstep, hrm0, if_neg hsz]
        rw [if_pos (by simp [hre₁])]
      | true =>
        cases hrm1 : chainRemove (d₁.ht1.table.getD (hash k &&& d₁.ht1.sizemask) []) k with
        | some c' =>
          obtain ⟨v, hv⟩ := chainRemove_some_perm hrm1
          have hne : d₁.ht1.table.getD (hash k &&& d₁.ht1.sizemask) [] ≠ [] := by
            intro h
            rw [h] at hrm1
            cases hrm1
          have hi1 : hash k &&& d₁.ht1.sizemask < d₁.ht1.table.length :=
            getD_ne_nil_lt hne
          have hlen1 : (d₁.ht1.table.getD (hash k &&& d₁.ht1.sizemask) []).length
              = c'.length + 1 := by simpa using hv.length_eq
          have husedge : 1 ≤ d₁.ht1.used := by
            have h1 := getD_length_le_sum d₁.ht1.table (hash k &&& d₁.ht1.sizemask) hi1
            have h2 := hwf₁.wfht1.used_eq
            omega
          have hwf1' : WFht hash
              ⟨d₁.ht1.table.set (hash k &&& d₁.ht1.sizemask) c', d₁.ht1.size,
                d₁.ht1.sizemask, d₁.ht1.used - 1⟩ := by
            refine WFht_setBucket hwf₁.wfht1 hi1 ?_ ?_
            · intro e he
              exact hwf₁.wfht1.placed _ hi1 e
                (hv.mem_iff.2 (List.mem_cons_of_mem _ he))
            · omega
          set d' : rDict := { d₁ with ht1 :=
            ⟨d₁.ht1.table.set (hash k &&& d₁.ht1.sizemask) c', d₁.ht1.size,
              d₁.ht1.sizemask, d₁.ht1.used - 1⟩ } with hd'
          have hpermdel : entriesL d₁ ~ (k, v) :: entriesL d' := by
            have hd := flatten_decomp d₁.ht1.table (hash k &&& d₁.ht1.sizemask) hi1
            have hs := flatten_set_perm d₁.ht1.table (hash k &&& d₁.ht1.sizemask) c' hi1
            calc entriesL d₁
                = d₁.ht0.table.flatten ++ d₁.ht1.table.flatten := rfl
              _ ~ d₁.ht0.table.flatten ++
                  (d₁.ht1.table.getD (hash k &&& d₁.ht1.sizemask) []
                    ++ (d₁.ht1.table.set (hash k &&& d₁.ht1.sizemask) []).flatten) :=
                  hd.append_left _
              _ ~ d₁.ht0.table.flatten ++ (((k, v) :: c')
                    ++ (d₁.ht1.table.set (hash k &&& d₁.ht1.sizemask) []).flatten) :=
                  ((hv.append_right _).append_left _)
              _ = d₁.ht0.table.flatten ++ ((k, v) :: (c'
                    ++ (d₁.ht1.table.set (hash k &&& d₁.ht1.sizemask) []).flatten)) := rfl
              _ ~ (k, v) :: (d₁.ht0.table.flatten ++ (c'
                    ++ (d₁.ht1.table.set (hash k &&& d₁.ht1.sizemask) []).flatten)) :=
                  List.perm_middle
              _ ~ (k, v) :: entriesL d' :=
                  ((hs.symm.append_left _).cons (k, v))
          have hkin : k ∈ keysL d := by
            refine hkeys.mem_iff.1 (mem_keysL_iff.2 ⟨v, ?_⟩)
            exact List.mem_append.2 (Or.inr
              (mem_getD_mem_flatten (hv.mem_iff.2 (List.mem_cons_self _ _))))
          have hconsnd : (k :: keysL d').Nodup :=
            (hpermdel.map Prod.fst).nodup_iff.1 hwf₁.nodupKeys
          have hknotin : k ∉ keysL d' := (List.nodup_cons.1 hconsnd).1
          have hnodup' : (keysL d').Nodup := (List.nodup_cons.1 hconsnd).2
          refine ⟨d', DICT_OK, ?_, ?_, hit₁, Or.inl ⟨rfl, hkin, hknotin,
            ⟨v, hperm₁.symm.trans hpermdel⟩⟩⟩
          · simp only [dictGenericDelete, hstep, hrm0, if_neg hsz]
            rw [if_neg (by simp [hre₁]), hrm1]
          · refine ⟨hwf₁.wfht0, hwf1', ?_, ?_, ?_, ?_, hnodup'⟩
            · exact hwf₁.ridx_bounds
            · intro hre
              refine ⟨(hwf₁.rehash_pos hre).1, ?_⟩
              show 0 < d₁.ht1.size
              exact (hwf₁.rehash_pos hre).2
            · intro hcon
              rw [show dictIsRehashing d' = dictIsRehashing d₁ from rfl, hre₁] at hcon
              cases hcon
            · intro i hi hlt
              exact hwf₁.prefix_empty i hi hlt
        | none =>
          have hcf1 : chainFind (d₁.ht1.table.getD (hash k &&& d₁.ht1.sizemask) []) k
              = none := chainFind_none_iff.2 (chainRemove_none_iff.1 hrm1)
          have hnk₁ : k ∉ keysL d₁ := hwf₁.not_mem_keys hcf0 (fun _ => hcf1)
          refine ⟨d₁, DICT_ERR, ?_, hwf₁, hit₁, Or.inr ⟨rfl,
            fun h => hnk₁ (hkeys.mem_iff.2 h), hperm₁⟩⟩
          simp only [dictGenericDelete, hstep, hrm0, if_neg hsz]
          rw [if_neg (by simp [hre₁]), hrm1]

/-! ## Rehash bucket accounting (for the step-semantics claim) -/

theorem bucketsNonempty_zero {t : List Chain}
    (h : (t.map List.length).sum = 0) : bucketsNonempty t = 0 := by
  induction t with
  | nil => rfl
  | cons a tl ih =>
    simp only [List.map, List.sum_cons] at h
    have ha : a = [] := List.eq_nil_of_length_eq_zero (by omega)
    simp only [bucketsNonempty, List.map, List.sum_cons, if_pos ha]
    have := ih (by omega)
    simp only [bucketsNonempty] at this
    omega

/-- Counting version of the rehash loop: starting mid-rehash with work left,
`n` loop steps migrate exactly `n` non-empty buckets when at least `n`
remain (staying mid-rehash, the cursor never moving backwards), and
otherwise migrate everything and finalize. -/
theorem dictRehashLoop_count (hash : Nat → Nat) :
    ∀ (n : Nat) (d : rDict), WF hash d → dictIsRehashing d = true →
      0 < d.ht0.used →
    ∃ d' r, dictRehashLoop hash d n = some (d', r) ∧ WF hash d' ∧
      entriesL d' ~ entriesL d ∧
      (n ≤ bucketsNonempty d.ht0.table →
        dictIsRehashing d' = true ∧
        bucketsNonempty d'.ht0.table + n = bucketsNonempty d.ht0.table ∧
        d.rehashidx ≤ d'.rehashidx) ∧
      (bucketsNonempty d.ht0.table < n →
        dictIsRehashing d' = false ∧ d'.ht1 = emptyHt ∧
        d'.ht0.table.flatten ~ entriesL d) := by
  intro n
  induction n with
  | zero =>
    intro d hwf hre _
    exact ⟨d, 1, rfl, hwf, .refl _,
      fun _ => ⟨hre, by omega, Int.le_refl _⟩, fun h => absurd h (by omega)⟩
  | succ n ih =>
    intro d hwf hre hu
    have hu' : d.ht0.used ≠ 0 := by omega
    have hsome := findBucketFrom_isSome (hwf.exists_nonempty_bucket hre hu')
    obtain ⟨idx, hfind⟩ := Option.isSome_iff_exists.1 hsome
    obtain ⟨s1, s2, s3, s4, s5, s6, s7, s8, s9, s10⟩ :=
      rehashMigrateBucket_spec hwf hre hfind
    have hloopeq : dictRehashLoop hash d (n + 1)
        = dictRehashLoop hash (rehashMigrateBucket hash d idx) n := by
      simp only [dictRehashLoop, if_neg hu', hfind]
    by_cases hu₁ : (rehashMigrateBucket hash d idx).ht0.used = 0
    · have hcnt₁ : bucketsNonempty (rehashMigrateBucket hash d idx).ht0.table = 0 := by
        refine bucketsNonempty_zero ?_
        have := s1.wfht0.used_eq
        omega
      have hcnt : bucketsNonempty d.ht0.table = 1 := by omega
      cases n with
      | zero =>
        refine ⟨rehashMigrateBucket hash d idx, 1, hloopeq, s1, s2, ?_, ?_⟩
        · intro _
          exact ⟨s3, by omega, Int.le_of_lt s7⟩
        · intro h
          omega
      | succ m =>
        obtain ⟨f1, f2, f3, f4, f5⟩ := finalizeRehash_spec s1 hu₁
        have hfl : (finalizeRehash (rehashMigrateBucket hash d idx)).ht0.table.flatten
            ~ entriesL d := by
          have hflat0 : (rehashMigrateBucket hash d idx).ht0.table.flatten = [] := by
            refine List.eq_nil_of_length_eq_zero ?_
            rw [List.length_flatten]
            have := s1.wfht0.used_eq
            omega
          have : (finalizeRehash (rehashMigrateBucket hash d idx)).ht0.table.flatten
              = entriesL (rehashMigrateBucket hash d idx) := by
            show (rehashMigrateBucket hash d idx).ht1.table.flatten = _
            rw [entriesL, hflat0]
            rfl
          rw [this]
          exact s2
        refine ⟨finalizeRehash (rehashMigrateBucket hash d idx), 0, ?_, f1,
          f2.trans s2, ?_, ?_⟩
        · rw [hloopeq]
          simp only [dictRehashLoop, if_pos hu₁]
        · intro h
          omega
        · intro _
          exact ⟨f5, rfl, hfl⟩
    · obtain ⟨d', r, hloop, hwf', hperm', himp1, himp2⟩ :=
        ih (rehashMigrateBucket hash d idx) s1 s3 (by omega)
      refine ⟨d', r, hloopeq ▸ hloop, hwf', hperm'.trans s2, ?_, ?_⟩
      · intro h
        obtain ⟨a1, a2, a3⟩ := himp1 (by omega)
        exact ⟨a1, by omega, Int.le_trans (Int.le_of_lt s7) a3⟩
      · intro h
        obtain ⟨a1, a2, a3⟩ := himp2 (by omega)
        exact ⟨a1, a2, a3.trans s2⟩

/-- Rehash step semantics on a well-formed mid-rehash dict, for `n > 0`:
`dictRehash(d, n)` never fails, preserves the entry multiset,
well-formedness (in particular every migrated entry is re-bucketed in
`ht[1]` by `hash(key) & ht1.sizemask`), and:
with `ht0.used = 0` it finalizes immediately (`ht0 ← ht1`, `ht1` reset,
cursor -1, return 0); otherwise it empties exactly `n` non-empty `ht[0]`
buckets when at least `n` remain — empty buckets are skipped without
counting against `n`, which is why only the non-empty bucket count drops —
staying mid-rehash with the cursor advanced, and with fewer than `n`
non-empty buckets left it migrates them all and finalizes. -/
theorem rehash_step_semantics {hash : Nat → Nat} {d : rDict}
    (hwf : WF hash d) (hre : dictIsRehashing d = true) (n : Nat)
    (hn : 0 < n) :
    ∃ d' r, dictRehash hash d n = some (d', r) ∧ WF hash d' ∧
      entriesL d' ~ entriesL d ∧
      (∀ i < d'.ht1.table.length, ∀ e ∈ d'.ht1.table.getD i [],
        hash e.1 &&& d'.ht1.sizemask = i) ∧
      (d.ht0.used = 0 →
        d' = { d with ht0 := d.ht1, ht1 := emptyHt, rehashidx := -1 } ∧
          r = 0) ∧
      (0 < d.ht0.used →
        (n ≤ bucketsNonempty d.ht0.table →
          dictIsRehashing d' = true ∧
          bucketsNonempty d'.ht0.table + n = bucketsNonempty d.ht0.table ∧
          d.rehashidx ≤ d'.rehashidx) ∧
        (bucketsNonempty d.ht0.table < n →
          dictIsRehashing d' = false ∧ d'.ht1 = emptyHt ∧
          d'.ht0.table.flatten ~ entriesL d)) := by
  by_cases hu : d.ht0.used = 0
  · obtain ⟨f1, f2, f3, f4, _⟩ := finalizeRehash_spec hwf hu
    obtain ⟨m, rfl⟩ : ∃ m, n = m + 1 := ⟨n - 1, by omega⟩
    refine ⟨finalizeRehash d, 0, ?_, f1, f2, f1.wfht1.placed,
      fun _ => ⟨rfl, rfl⟩, fun h => absurd h (by omega)⟩
    simp [dictRehash, hre, dictRehashLoop, hu]
  · obtain ⟨d', r, hloop, hwf', hperm', himp1, himp2⟩ :=
      dictRehashLoop_count hash n d hwf hre (by omega)
    refine ⟨d', r, ?_, hwf', hperm', hwf'.wfht1.placed,
      fun h => absurd h hu, fun _ => ⟨himp1, himp2⟩⟩
    simp only [dictRehash, hre, if_pos rfl]
    exact hloop

/-! ## `dictReplace` machinery -/

/-- Adding an already-present key reports `KeyExists` (DICT_ERR) and mutates
nothing beyond the opportunistic rehash step. -/
theorem dictAdd_mem {hash : Nat → Nat} {cr : Bool} {d : rDict} {k : Nat}
    (v : Nat) (hwf : WF hash d) (hk : k ∈ keysL d) :
    ∃ d₂, dictAdd hash cr d k v = some (d₂, DICT_ERR) ∧ WF hash d₂ ∧
      entriesL d₂ ~ entriesL d := by
  obtain ⟨d₁, hstep, hwf₁, hperm₁, hit₁, _⟩ := condStep_spec hwf
  have hk₁ : k ∈ keysL d₁ := (hperm₁.map Prod.fst).mem_iff.2 hk
  obtain ⟨d₂, hki, hwf₂, hent₂, hit₂⟩ := @keyIndex_mem _ cr _ _ hwf₁ hk₁
  refine ⟨d₂, ?_, hwf₂, hent₂ ▸ hperm₁⟩
  simp only [dictAdd, hstep, hki]

/-- Overwriting the value of a present key in place preserves
well-formedness and the key multiset. -/
theorem dictSetValByFind_spec {hash : Nat → Nat} {d : rDict} {k : Nat}
    (v : Nat) (hwf : WF hash d) (hk : k ∈ keysL d) :
    WF hash (dictSetValByFind hash d k v) ∧
      keysL (dictSetValByFind hash d k v) ~ keysL d := by
  obtain ⟨w, hw⟩ := mem_keysL_iff.1 hk
  have setBucket :
      ∀ t : dictht, WFht hash t → ∀ i, i < t.table.length →
        WFht hash ⟨t.table.set i (chainSetVal (t.table.getD i []) k v), t.size,
          t.sizemask, t.used⟩ := by
    intro t hwft i hi
    refine WFht_setBucket hwft hi ?_ ?_
    · intro e he
      obtain ⟨e₀, he₀, hke⟩ := chainSetVal_key_mem he
      rw [← hke]
      exact hwft.placed i hi e₀ he₀
    · rw [chainSetVal_length]
  have keysBucket : ∀ (t : List Chain) (i : Nat), i < t.length →
      ((t.set i (chainSetVal (t.getD i []) k v)).flatten.map Prod.fst)
        ~ (t.flatten.map Prod.fst) := by
    intro t i hi
    have hs := flatten_set_perm t i (chainSetVal (t.getD i []) k v) hi
    have hd := flatten_decomp t i hi
    calc (t.set i (chainSetVal (t.getD i []) k v)).flatten.map Prod.fst
        ~ ((chainSetVal (t.getD i []) k v) ++ (t.set i []).flatten).map Prod.fst :=
          hs.map _
      _ = (chainSetVal (t.getD i []) k v).map Prod.fst
          ++ ((t.set i []).flatten).map Prod.fst := List.map_append ..
      _ = (t.getD i []).map Prod.fst ++ ((t.set i []).flatten).map Prod.fst := by
          rw [chainSetVal_map_fst]
      _ = ((t.getD i [] ++ (t.set i []).flatten)).map Prod.fst :=
          (List.map_append ..).symm
      _ ~ t.flatten.map Prod.fst := (hd.map _).symm
  by_cases hcf0 : (chainFind (d.ht0.table.getD (hash k &&& d.ht0.sizemask) []) k).isSome = true
  · set ht0' : dictht :=
      ⟨d.ht0.table.set (hash k &&& d.ht0.sizemask)
          (chainSetVal (d.ht0.table.getD (hash k &&& d.ht0.sizemask) []) k v),
        d.ht0.size, d.ht0.sizemask, d.ht0.used⟩ with hht0'
    have heq : dictSetValByFind hash d k v = ⟨ht0', d.ht1, d.rehashidx, d.iterators⟩ := by
      simp only [dictSetValByFind]
      rw [if_pos hcf0]
    obtain ⟨e, hfe⟩ := Option.isSome_iff_exists.1 hcf0
    have hne : d.ht0.table.getD (hash k &&& d.ht0.sizemask) [] ≠ [] := by
      intro h
      rw [h] at hfe
      cases hfe
    have hi0 : hash k &&& d.ht0.sizemask < d.ht0.table.length :=
      getD_ne_nil_lt hne
    have hkeys : keysL (⟨ht0', d.ht1, d.rehashidx, d.iterators⟩ : rDict)
        ~ keysL d := by
      simp only [keysL, entriesL, List.map_append, hht0']
      exact (keysBucket d.ht0.table _ hi0).append_right _
    rw [heq]
    refine ⟨⟨setBucket d.ht0 hwf.wfht0 _ hi0, hwf.wfht1, hwf.ridx_bounds,
      hwf.rehash_pos, hwf.not_rehash_ht1, ?_, hkeys.nodup_iff.2 hwf.nodupKeys⟩,
      hkeys⟩
    intro i hi hlt
    simp only [hht0', List.length_set] at hi
    by_cases hii : i = hash k &&& d.ht0.sizemask
    · subst hii
      exact absurd (hwf.prefix_empty _ hi hlt) hne
    · show (d.ht0.table.set (hash k &&& d.ht0.sizemask)
          (chainSetVal (d.ht0.table.getD (hash k &&& d.ht0.sizemask) []) k v)).getD i [] = []
      rw [getD_set_ne d.ht0.table _ i _ (fun hh => hii hh.symm)]
      exact hwf.prefix_empty i hi hlt
  · set ht1' : dictht :=
      ⟨d.ht1.table.set (hash k &&& d.ht1.sizemask)
          (chainSetVal (d.ht1.table.getD (hash k &&& d.ht1.sizemask) []) k v),
        d.ht1.size, d.ht1.sizemask, d.ht1.used⟩ with hht1'
    have heq : dictSetValByFind hash d k v = ⟨d.ht0, ht1', d.rehashidx, d.iterators⟩ := by
      simp only [dictSetValByFind]
      rw [if_neg hcf0]
    have hin1 : (k, w) ∈ d.ht1.table.getD (hash k &&& d.ht1.sizemask) [] := by
      rcases hwf.entry_located hw with h0 | ⟨_, h1⟩
      · exact absurd (chainFind_isSome_of_mem h0) hcf0
      · exact h1
    have hne : d.ht1.table.getD (hash k &&& d.ht1.sizemask) [] ≠ [] := by
      intro h
      rw [h] at hin1
      cases hin1
    have hi1 : hash k &&& d.ht1.sizemask < d.ht1.table.length :=
      getD_ne_nil_lt hne
    have hkeys : keysL (⟨d.ht0, ht1', d.rehashidx, d.iterators⟩ : rDict)
        ~ keysL d := by
      simp only [keysL, entriesL, List.map_append, hht1']
      exact (keysBucket d.ht1.table _ hi1).append_left _
    rw [heq]
    refine ⟨⟨hwf.wfht0, setBucket d.ht1 hwf.wfht1 _ hi1, hwf.ridx_bounds,
      ?_, ?_, hwf.prefix_empty, hkeys.nodup_iff.2 hwf.nodupKeys⟩, hkeys⟩
    · intro hre
      exact hwf.rehash_pos hre
    · intro hre
      have := hwf.not_rehash_ht1 hre
      rw [this] at hin1
      cases hin1

/-- `dictReplace` on a well-formed dict is total and preserves
well-formedness. -/
theorem dictReplace_spec {hash : Nat → Nat} {cr : Bool} {d : rDict}
    (k v : Nat) (hwf : WF hash d) :
    ∃ d' r, dictReplace hash cr d k v = some (d', r) ∧ WF hash d' := by
  by_cases hk : k ∈ keysL d
  · obtain ⟨d₂, hadd, hwf₂, hperm₂⟩ := @dictAdd_mem _ cr _ _ v hwf hk
    have hk₂ : k ∈ keysL d₂ := (hperm₂.map Prod.fst).mem_iff.2 hk
    obtain ⟨d₃, r, hfind, hwf₃, hperm₃, _, hiff, hnone, hkey⟩ :=
      dictFind_spec k hwf₂
    have hk₃ : k ∈ keysL d₃ := (hperm₃.map Prod.fst).mem_iff.2 hk₂
    cases hr : r with
    | none =>
      rw [hr] at hnone
      exact absurd hk₂ (hnone.1 rfl)
    | some e =>
      refine ⟨dictSetValByFind hash d₃ k v, 0, ?_,
        (dictSetValByFind_spec v hwf₃ hk₃).1⟩
      simp only [dictReplace, hadd, hr ▸ hfind]
      rw [if_neg (by simp [DICT_OK, DICT_ERR])]
  · obtain ⟨d₁, hadd, hwf₁, _⟩ := @dictAdd_spec _ cr _ _ v hwf hk
    refine ⟨d₁, 1, ?_, hwf₁⟩
    simp [dictReplace, hadd]

/-! ## `dictExpand` case analysis and WF preservation -/

theorem dictExpand_cases (d : rDict) (s : Nat) :
    ((dictIsRehashing d = true ∨ s < d.ht0.used) →
      dictExpand d s = (d, DICT_ERR)) ∧
    (¬(dictIsRehashing d = true ∨ s < d.ht0.used) →
      (d.ht0.table = [] →
        dictExpand d s = ({ d with ht0 := newHt (_dictNextPower s) }, DICT_OK)) ∧
      (d.ht0.table ≠ [] →
        dictExpand d s
          = ({ d with ht1 := newHt (_dictNextPower s), rehashidx := 0 },
             DICT_OK))) := by
  constructor
  · intro hg
    simp only [dictExpand]
    rw [if_pos hg]
  · intro hg
    constructor
    · intro htab
      simp only [dictExpand]
      rw [if_neg hg, if_pos htab]
    · intro htab
      simp only [dictExpand]
      rw [if_neg hg, if_neg htab]

theorem dictExpand_WF {hash : Nat → Nat} {d : rDict} (n : Nat)
    (hwf : WF hash d) : WF hash (dictExpand d n).1 := by
  by_cases hg : dictIsRehashing d = true ∨ n < d.ht0.used
  · rw [(dictExpand_cases d n).1 hg]
    exact hwf
  · have hre' : dictIsRehashing d = false := by
      cases h : dictIsRehashing d with
      | false => rfl
      | true => exact absurd (Or.inl h) hg
    have hrid : d.rehashidx = -1 := not_rehashing_iff.1 hre'
    have hht1 : d.ht1 = emptyHt := hwf.not_rehash_ht1 hre'
    set N := _dictNextPower n with hN
    have hNpos : 0 < N := nextPower_pos n
    by_cases htab : d.ht0.table = []
    · rw [((dictExpand_cases d n).2 hg).1 htab]
      have hent : entriesL { d with ht0 := newHt N } = entriesL d := by
        simp [entriesL, newHt_flatten, htab]
      refine ⟨WFht_newHt hash N, hwf.wfht1, ?_, ?_, fun _ => hht1, ?_, ?_⟩
      · constructor
        · simp [hrid]
        · show d.rehashidx ≤ ((newHt N).size : Int)
          simp [newHt, hrid]
          omega
      · intro hcon
        rw [show dictIsRehashing { d with ht0 := newHt N } = dictIsRehashing d
            from rfl, hre'] at hcon
        cases hcon
      · intro i hi hlt
        simp only [hrid] at hlt
        omega
      · rw [show keysL { d with ht0 := newHt N }
            = (entriesL { d with ht0 := newHt N }).map Prod.fst from rfl, hent]
        exact hwf.nodupKeys
    · rw [((dictExpand_cases d n).2 hg).2 htab]
      have hsz0 : 0 < d.ht0.size := by
        have := hwf.wfht0.len
        have : d.ht0.table.length ≠ 0 := fun h =>
          htab (List.eq_nil_of_length_eq_zero h)
        omega
      have hent : entriesL { d with ht1 := newHt N, rehashidx := 0 }
          = entriesL d := by
        simp [entriesL, newHt_flatten, hht1, emptyHt]
      have hreh' : dictIsRehashing { d with ht1 := newHt N, rehashidx := 0 }
          = true := by simp [dictIsRehashing]
      refine ⟨hwf.wfht0, WFht_newHt hash N, ?_, ?_, ?_, ?_, ?_⟩
      · constructor
        · simp
        · show (0 : Int) ≤ (d.ht0.size : Int)
          omega
      · intro _
        refine ⟨hsz0, ?_⟩
        simpa [newHt] using hNpos
      · intro hcon
        rw [hreh'] at hcon
        cases hcon
      · intro i hi hlt
        simp only at hlt
        omega
      · rw [show keysL { d with ht1 := newHt N, rehashidx := 0 }
            = (entriesL { d with ht1 := newHt N, rehashidx := 0 }).map Prod.fst
            from rfl, hent]
        exact hwf.nodupKeys

/-! ## Operation sequences preserve well-formedness -/

theorem WF_dictCreate (hash : Nat → Nat) : WF hash dictCreate :=
  ⟨WFht_emptyHt hash, WFht_emptyHt hash, by decide,
    fun h => absurd h (by decide), fun _ => rfl,
    fun i hi _ => absurd hi (by simp [dictCreate, emptyHt]),
    List.Pairwise.nil⟩

theorem applyOp_spec {hash : Nat → Nat} {cr : Bool} {d : rDict}
    (hwf : WF hash d) (op : DictOp) :
    ∃ d', applyOp hash cr d op = some d' ∧ WF hash d' := by
  cases op with
  | add k v =>
    by_cases hk : k ∈ keysL d
    · obtain ⟨d₂, heq, hwf₂, _⟩ := @dictAdd_mem _ cr _ _ v hwf hk
      exact ⟨d₂, by simp [applyOp, heq], hwf₂⟩
    · obtain ⟨d₁, heq, hwf₁, _⟩ := @dictAdd_spec _ cr _ _ v hwf hk
      exact ⟨d₁, by simp [applyOp, heq], hwf₁⟩
  | replace k v =>
    obtain ⟨d', r, heq, hwf'⟩ := @dictReplace_spec _ cr _ k v hwf
    exact ⟨d', by simp [applyOp, heq], hwf'⟩
  | delete k =>
    obtain ⟨d', st, heq, hwf', _, _⟩ := dictDelete_spec k hwf
    exact ⟨d', by simp [applyOp, heq], hwf'⟩
  | expand n =>
    exact ⟨(dictExpand d n).1, rfl, dictExpand_WF n hwf⟩
  | rehash n =>
    obtain ⟨d', r, heq, hwf', _, _, _⟩ := dictRehash_spec hwf n
    exact ⟨d', by simp [applyOp, heq], hwf'⟩

theorem runOps_WF {hash : Nat → Nat} {cr : Bool} :
    ∀ (ops : List DictOp) (d : rDict), WF hash d →
      ∃ d', runOps hash cr d ops = some d' ∧ WF hash d' := by
  intro ops
  induction ops with
  | nil => exact fun d hwf => ⟨d, rfl, hwf⟩
  | cons op rest ih =>
    intro d hwf
    obtain ⟨d₁, heq, hwf₁⟩ := @applyOp_spec _ cr _ hwf op
    obtain ⟨d', heq', hwf'⟩ := ih d₁ hwf₁
    exact ⟨d', by simp [runOps, heq, heq'], hwf'⟩

/-! ## C9: the size invariant -/

/-- C9: for every sequence of create/add/replace/delete/expand/rehash
operations (run from `dictCreate`) that completes, `dictSize` — the sum
`ht0.used + ht1.used` — equals the number of distinct keys currently
stored, and any further `dictRehash` never changes `dictSize`. -/
theorem size_counts_distinct_keys (hash : Nat → Nat) (cr : Bool)
    (ops : List DictOp) (d : rDict)
    (hrun : runOps hash cr dictCreate ops = some d) :
    dictSize d = ((keysL d).dedup).length ∧
    (∀ n d' r, dictRehash hash d n = some (d', r) →
      dictSize d' = dictSize d) := by
  obtain ⟨d'', heq, hwf⟩ := @runOps_WF hash cr ops dictCreate (WF_dictCreate hash)
  rw [hrun] at heq
  injection heq with heq
  subst heq
  constructor
  · rw [hwf.size_eq_length, (hwf.nodupKeys).dedup]
    simp [keysL]
  · intro n d' r h
    obtain ⟨d₀, r₀, h₀, _, _, _, hsz⟩ := dictRehash_spec hwf n
    rw [h] at h₀
    injection h₀ with h₀
    injection h₀ with h₀ _
    rw [← h₀] at hsz
    exact hsz

/-! ## C2: the add/find and delete/find round trip -/

/-- C2: on a well-formed dict, adding an absent key `k` with value `v`
succeeds and a subsequent `dictFind` returns an entry carrying exactly
`(k, v)`; and whenever `dictDelete` (i.e. `dictGenericDelete`) succeeds for
`k`, a subsequent `dictFind` reports the key as not found. -/
theorem add_find_delete_find_roundtrip {hash : Nat → Nat} {cr : Bool}
    {d : rDict} {k : Nat} (hwf : WF hash d) :
    (∀ v, k ∉ keysL d →
      ∃ d₁, dictAdd hash cr d k v = some (d₁, DICT_OK) ∧
        ∃ d₂, dictFind hash d₁ k = some (d₂, some (k, v))) ∧
    (∀ d₁ st, dictGenericDelete hash d k = some (d₁, st) → st = DICT_OK →
      ∃ d₂, dictFind hash d₁ k = some (d₂, none)) := by
  constructor
  · intro v hk
    obtain ⟨d₁, hadd, hwf₁, hperm₁⟩ := @dictAdd_spec _ cr _ _ v hwf hk
    obtain ⟨d₂, r, hfind, _, _, _, hiff, _, _⟩ := dictFind_spec k hwf₁
    have hmem : (k, v) ∈ entriesL d₁ :=
      hperm₁.mem_iff.2 (List.mem_cons_self _ _)
    refine ⟨d₁, hadd, d₂, ?_⟩
    rw [(hiff v).2 hmem] at hfind
    exact hfind
  · intro d₁ st hdel hok
    obtain ⟨d₁', st', hdel', hwf₁, _, hcase⟩ := dictDelete_spec k hwf
    rw [hdel] at hdel'
    injection hdel' with h
    injection h with h1 h2
    subst h1
    subst h2
    rcases hcase with ⟨_, _, hknot, _⟩ | ⟨herr, _, _⟩
    · obtain ⟨d₂, r, hfind, _, _, _, _, hnone, _⟩ := dictFind_spec k hwf₁
      refine ⟨d₂, ?_⟩
      rw [hnone.2 hknot] at hfind
      exact hfind
    · rw [hok] at herr
      exact absurd herr (by simp [DICT_OK, DICT_ERR])

/-! ## C7: `dictExpand` rejection and atomicity -/

/-- C7: `dictExpand(d, s)` fails exactly when the dict is mid-rehash or
`s < ht0.used`, and on failure the dict is unchanged; on success with
`ht0` not yet allocated (`table == []`) the fresh `_dictNextPower s`-sized
generation becomes `ht0` directly and rehashing is (still) not started,
otherwise it becomes `ht1` with the rehash cursor set to 0.  Moreover the
chosen capacity really is the least power of two ≥ `max s 4` (capped at
`LONG_MAX`). -/
theorem dictExpand_rejection_atomicity (d : rDict) (s : Nat) :
    ((dictExpand d s).2 = DICT_ERR ↔
      dictIsRehashing d = true ∨ s < d.ht0.used) ∧
    ((dictExpand d s).2 = DICT_ERR → (dictExpand d s).1 = d) ∧
    ((dictExpand d s).2 = DICT_OK → d.ht0.table = [] →
      (dictExpand d s).1 = { d with ht0 := newHt (_dictNextPower s) } ∧
      dictIsRehashing (dictExpand d s).1 = false) ∧
    ((dictExpand d s).2 = DICT_OK → d.ht0.table ≠ [] →
      (dictExpand d s).1
        = { d with ht1 := newHt (_dictNextPower s), rehashidx := 0 } ∧
      dictIsRehashing (dictExpand d s).1 = true) ∧
    (s < LONG_MAX →
      (∃ j, _dictNextPower s = 2 ^ j) ∧ s ≤ _dictNextPower s) ∧
    4 ≤ _dictNextPower s ∧
    (∀ j, 2 ≤ j → s ≤ 2 ^ j → _dictNextPower s ≤ 2 ^ j) := by
  have hcases := dictExpand_cases d s
  by_cases hg : dictIsRehashing d = true ∨ s < d.ht0.used
  · rw [hcases.1 hg]
    refine ⟨⟨fun _ => hg, fun _ => rfl⟩, fun _ => rfl, ?_, ?_, ?_, ?_, ?_⟩
    · intro hok
      exact absurd hok (by simp [DICT_OK, DICT_ERR])
    · intro hok
      exact absurd hok (by simp [DICT_OK, DICT_ERR])
    · exact fun h => ⟨nextPower_pow2 h, nextPower_ge_size h⟩
    · exact nextPower_ge_four s
    · exact fun j hj hs => nextPower_min hj hs
  · have hre' : dictIsRehashing d = false := by
      cases h : dictIsRehashing d with
      | false => rfl
      | true => exact absurd (Or.inl h) hg
    have hrid : d.rehashidx = -1 := not_rehashing_iff.1 hre'
    by_cases htab : d.ht0.table = []
    · rw [(hcases.2 hg).1 htab]
      refine ⟨⟨fun h => absurd h (by simp [DICT_OK, DICT_ERR]),
        fun h => absurd h hg⟩,
        fun h => absurd h (by simp [DICT_OK, DICT_ERR]), ?_, ?_, ?_, ?_, ?_⟩
      · intro _ _
        refine ⟨rfl, ?_⟩
        simp [dictIsRehashing, hrid]
      · intro _ hcon
        exact absurd htab hcon
      · exact fun h => ⟨nextPower_pow2 h, nextPower_ge_size h⟩
      · exact nextPower_ge_four s
      · exact fun j hj hs => nextPower_min hj hs
    · rw [(hcases.2 hg).2 htab]
      refine ⟨⟨fun h => absurd h (by simp [DICT_OK, DICT_ERR]),
        fun h => absurd h hg⟩,
        fun h => absurd h (by simp [DICT_OK, DICT_ERR]), ?_, ?_, ?_, ?_, ?_⟩
      · intro _ hcon
        exact absurd hcon htab
      · intro _ _
        exact ⟨rfl, by simp [dictIsRehashing]⟩
      · exact fun h => ⟨nextPower_pow2 h, nextPower_ge_size h⟩
      · exact nextPower_ge_four s
      · exact fun j hj hs => nextPower_min hj hs

/-! ## Safe-iterator counter: where the increment really happens -/

/-- Once the iterator is past its first step (`index ≥ 0`), `dictNext`
never touches the dict again: the state carried by the result is the input
dict. -/
theorem dictNextLoop_state_const :
    ∀ (fuel : Nat) (d : rDict) (it : dictIterator) (res : nextResult),
      0 ≤ it.index → dictNextLoop fuel d it = some res → res.state = d := by
  intro fuel
  induction fuel with
  | zero =>
    intro d it res _ h
    cases h
  | succ fuel ih =>
    intro d it res hidx h
    have hP : ¬(it.index = -1 ∧ it.table = 0 ∧ it.safe = true) := by
      rintro ⟨h1, -, -⟩
      omega
    cases hent : it.entry with
    | none =>
      simp only [dictNextLoop, hent, if_neg hP] at h
      split at h
      · split at h
        · split at h
          · injection h with h
            subst h
            rfl
          · split at h
            · injection h with h
              subst h
              rfl
            · exact ih d _ res (by simp) h
        · injection h with h
          subst h
          rfl
      · split at h
        · injection h with h
          subst h
          rfl
        · split at h
          · injection h with h
            subst h
            rfl
          · exact ih d _ res (by simp; omega) h
    | some c =>
      simp only [dictNextLoop, hent] at h
      split at h
      · injection h with h
        subst h
        rfl
      · exact ih d _ res (by simp [hidx]) h

/-- First iteration of the `dictNext` loop on a freshly acquired safe
iterator: the counter is bumped, the index moves to 0 and bucket 0 of
generation 0 is read (the `index > size` branch is unreachable since the
new index 0 is never above a size). -/
theorem dictNextLoop_fresh_safe_eq (fuel : Nat) (d : rDict) :
    dictNextLoop (fuel + 1) d ⟨0, -1, true, none, none, 0⟩
      = (match d.ht0.table.get? 0 with
        | none => some (.crash { d with iterators := d.iterators + 1 }
            ⟨0, 0, true, none, none, 0⟩)
        | some c =>
          match chainOpt c with
          | some (e :: rest) =>
            some (.out { d with iterators := d.iterators + 1 }
              ⟨0, 0, true, some (e :: rest), chainOpt rest, 0⟩ (some e))
          | _ => dictNextLoop fuel { d with iterators := d.iterators + 1 }
              ⟨0, 0, true, none, none, 0⟩) := by
  obtain ⟨⟨t0, sz0, m0, u0⟩, ht1r, rid, its⟩ := d
  cases sz0 with
  | zero => rfl
  | succ n => rfl

/-- The safe-iterator counter is incremented inside the iterator's first
`dictNext` call (not at acquisition): whatever that first call does — yield
an entry, end, or crash — the dict it leaves behind is the input dict with
`iterators` bumped by one. -/
theorem dictNext_safe_first_increments (d : rDict) (res : nextResult)
    (h : dictNext d (dictGetSafeIterator d).2 = some res) :
    res.state = { d with iterators := d.iterators + 1 } := by
  have hit : (dictGetSafeIterator d).2
      = (⟨0, -1, true, none, none, 0⟩ : dictIterator) := rfl
  have hfuel : 2 * (d.ht0.size + d.ht1.size) + 4
      = (2 * (d.ht0.size + d.ht1.size) + 3) + 1 := rfl
  unfold dictNext at h
  rw [hit, hfuel, dictNextLoop_fresh_safe_eq] at h
  split at h
  · injection h with h
    subst h
    rfl
  · split at h
    · injection h with h
      subst h
      rfl
    · exact dictNextLoop_state_const _ _ _ res (by simp) h

/-- With the counter held positive, `dictFind` leaves the dict completely
unchanged (the opportunistic rehash step is suppressed and lookup is
read-only). -/
theorem dictFind_noop_when_iterators {hash : Nat → Nat} {d : rDict}
    (k : Nat) (hit : d.iterators ≠ 0) :
    (dictFind hash d k).map Prod.fst = some d := by
  by_cases hsz : d.ht0.size = 0
  · simp [dictFind, hsz]
  · have hstep : (if dictIsRehashing d then _dictRehashStep hash d else some d)
        = some d := by
      by_cases hre : dictIsRehashing d = true
      · simp [hre, rehashStep_noop hit]
      · simp [show dictIsRehashing d = false from by simpa using hre]
    simp only [dictFind, if_neg hsz, hstep]
    cases hcf0 : chainFind (d.ht0.table.getD (hash k &&& d.ht0.sizemask) []) k with
    | some e => simp
    | none =>
      by_cases hre : dictIsRehashing d = true
      · simp [hre]
      · simp [show dictIsRehashing d = false from by simpa using hre]

/-- C6 (amended): `dictGetSafeIterator` only marks the iterator safe and
leaves the dict — in particular its `iterators` counter — untouched; the
increment happens inside the iterator's first `dictNext` call; and while
the counter is positive the opportunistic rehash step (`_dictRehashStep`)
does nothing, so e.g. a `dictFind` during safe iteration leaves the dict
unchanged and no entry migrates between generations. -/
theorem safe_iterator_suspension_amended (hash : Nat → Nat) :
    (∀ d : rDict, (dictGetSafeIterator d).1 = d ∧
      (dictGetSafeIterator d).2.safe = true) ∧
    (∀ (d : rDict) (res : nextResult),
      dictNext d (dictGetSafeIterator d).2 = some res →
      res.state = { d with iterators := d.iterators + 1 }) ∧
    (∀ d : rDict, d.iterators ≠ 0 → _dictRehashStep hash d = some d) ∧
    (∀ (d : rDict) (k : Nat), d.iterators ≠ 0 →
      (dictFind hash d k).map Prod.fst = some d) :=
  ⟨fun _ => ⟨rfl, rfl⟩, dictNext_safe_first_increments,
    fun _ hit => rehashStep_noop hit,
    fun _ k hit => dictFind_noop_when_iterators k hit⟩

theorem safe_iterator_suspension_amended_witness :
    (dictGetSafeIterator dMid).1 = dMid ∧
    nextResult.state (nextResult.out
        (⟨⟨[[(0, 0)], [], [], []], 4, 3, 1⟩,
          ⟨[[], [(1, 1)], [], [], [], [], [], []], 8, 7, 1⟩, 0, 1⟩ : rDict)
        ⟨0, 0, true, some [(0, 0)], none, 0⟩ (some (0, 0)))
      = { dMid with iterators := dMid.iterators + 1 } ∧
    _dictRehashStep idHash { dMid with iterators := 1 }
      = some { dMid with iterators := 1 } ∧
    (dictFind idHash { dMid with iterators := 1 } 5).map Prod.fst
      = some { dMid with iterators := 1 } := by
  have h := safe_iterator_suspension_amended idHash
  exact ⟨(h.1 dMid).1,
    h.2.1 dMid _ (by decide),
    h.2.2.1 _ (by decide),
    h.2.2.2 _ 5 (by decide)⟩

theorem add_find_delete_find_roundtrip_witness :
    (∃ d₁, dictAdd idHash true scanDict 5 7 = some (d₁, DICT_OK) ∧
      ∃ d₂, dictFind idHash d₁ 5 = some (d₂, some (5, 7))) ∧
    (∃ d₂, dictFind idHash
        (⟨⟨[[], [(1, 11)], [(2, 12)], [(3, 13)]], 4, 3, 3⟩, emptyHt, -1, 0⟩
          : rDict) 0
      = some (d₂, none)) := by
  have h5 := @add_find_delete_find_roundtrip idHash true scanDict 5 (by decide)
  have h0 := @add_find_delete_find_roundtrip idHash true scanDict 0 (by decide)
  exact ⟨h5.1 7 (by decide),
    h0.2 (⟨⟨[[], [(1, 11)], [(2, 12)], [(3, 13)]], 4, 3, 3⟩, emptyHt, -1, 0⟩
          : rDict) DICT_OK (by decide) rfl⟩

theorem dictExpand_rejection_atomicity_witness :
    (dictExpand d5 4).2 = DICT_ERR ∧ (dictExpand d5 4).1 = d5 := by
  have h := dictExpand_rejection_atomicity d5 4
  have herr := h.1.2 (Or.inr (by decide))
  exact ⟨herr, h.2.1 herr⟩

theorem rehash_step_semantics_witness :
    ∃ d' r, dictRehash idHash dMid 1 = some (d', r) ∧ WF idHash d' ∧
      entriesL d' ~ entriesL dMid := by
  obtain ⟨d', r, h1, h2, h3, _⟩ := @rehash_step_semantics idHash dMid (by decide) (by decide) 1 (by decide)
  exact ⟨d', r, h1, h2, h3⟩

theorem size_counts_distinct_keys_witness :
    dictSize (⟨⟨[[], [], [(2, 20)], []], 4, 3, 1⟩, emptyHt, -1, 0⟩ : rDict)
      = ((keysL (⟨⟨[[], [], [(2, 20)], []], 4, 3, 1⟩, emptyHt, -1, 0⟩
          : rDict)).dedup).length :=
  (size_counts_distinct_keys idHash true
    [.add 1 10, .add 2 20, .delete 1]
    (⟨⟨[[], [], [(2, 20)], []], 4, 3, 1⟩, emptyHt, -1, 0⟩ : rDict)
    (by decide)).1

end RDict
